import Mathlib

/-!
Verification of the dependency resolver in `src/lib/dependencies.js` of
PremiseInc/gulp-boilerplate.

The JavaScript module is shallowly embedded:

* the POSIX path helpers (`path.extname`, `path.dirname`, `path.resolve`,
  `path.join`) are modelled character-wise for absolute POSIX paths;
* the filesystem is an explicit value: an association list of regular files
  (path, content, mtime) plus an association list of directories;
* the two regular expressions of `jsSearchConfig` and the two of the `.scss`
  configuration are modelled by executable scanners that follow the JS
  `RegExp.exec` global-matching discipline (leftmost match, alternation in
  written order, greedy character classes, lazy gap before the capture);
* the module-global `dependencyCache` / `resolverCache` objects become an
  explicit `Caches` value threaded through the computation, extended with a
  read log (spec section 8 asks for read-count instrumentation);
* exceptions (`statSync` / `readFileSync` throwing) become `Except DepError`;
* the unbounded recursion of `getDependencies` is indexed by fuel: a `none`
  result means the recursion exceeded the given depth budget, so a run that
  yields `none` for every fuel value diverges.
-/

namespace Gulp

/-! ## Character-level path helpers (model of Node's `path` for POSIX paths) -/

/-- Model of the JS whitespace class used by the regular expressions. -/
def isJsSpace (c : Char) : Bool :=
  c = ' ' || c = '\t' || c = '\n' || c = '\r' || c = '\x0b' || c = '\x0c'

/-- Characters matched by the regex class `[\w\-]`. -/
def isWordChar (c : Char) : Bool :=
  c.isAlphanum || c = '_' || c = '-'

/-- Split a character list on a separator character. -/
def splitChar (sep : Char) : List Char → List (List Char)
  | [] => [[]]
  | c :: rest =>
    let r := splitChar sep rest
    if c = sep then [] :: r
    else match r with
      | [] => [[c]]
      | seg :: segs => (c :: seg) :: segs

/-- Path-segment normalisation used by `path.resolve`: drop empty and `"."`
segments, pop one segment on `".."`.  The accumulator holds the segments seen
so far, in reverse order. -/
def normSegs : List (List Char) → List (List Char) → List (List Char)
  | acc, [] => acc.reverse
  | acc, seg :: rest =>
    if seg = [] then normSegs acc rest
    else if seg = ['.'] then normSegs acc rest
    else if seg = ['.', '.'] then normSegs acc.tail rest
    else normSegs (seg :: acc) rest

/-- Join segments with `'/'`, producing an absolute path. -/
def joinSegs : List (List Char) → List Char
  | [] => []
  | [seg] => '/' :: seg
  | seg :: rest => '/' :: seg ++ joinSegs rest

/-- Model of `path.resolve(directory, dep)` for an absolute `directory`:
an absolute `dep` wins, otherwise `dep` is appended, and the result is
normalised.  (Node would consult the working directory for a relative
`directory`; every directory in this development is absolute.) -/
def resolvePath (directory dep : String) : String :=
  let full :=
    match dep.toList with
    | '/' :: _ => dep.toList
    | _ => directory.toList ++ '/' :: dep.toList
  let segs := normSegs [] (splitChar '/' full)
  match segs with
  | [] => "/"
  | _ => String.mk (joinSegs segs)

/-- Model of `path.extname`: the suffix of the basename from its last dot,
empty when the basename has no dot or only a leading dot. -/
def extname (s : String) : String :=
  let revBase := s.toList.reverse.takeWhile (fun c => c != '/')
  let afterDot := revBase.takeWhile (fun c => c != '.')
  if afterDot.length = revBase.length then ""
  else if revBase.length - afterDot.length - 1 = 0 then ""
  else String.mk ('.' :: afterDot.reverse)

/-- Model of `path.dirname` for the absolute paths used here. -/
def dirname (s : String) : String :=
  let rev := s.toList.reverse.dropWhile (fun c => c != '/')
  match rev with
  | [] => "."
  | [_] => "/"
  | _ :: more => String.mk more.reverse

/-- Model of `path.join(a, b)` for a plain relative `b` (the only use in the
source is joining a directory-like path with the fixed name `_index.scss`). -/
def joinPath (a b : String) : String :=
  a ++ "/" ++ b

/-- Model of `filename.replace( /([\w\-]+)$/, '_$1.scss' )`: when the path
ends in a non-empty run of word characters, prefix that run with an
underscore and append `.scss`; otherwise return the path unchanged. -/
def sassPartialName (s : String) : String :=
  let rcs := s.toList.reverse
  let run := rcs.takeWhile isWordChar
  let rest := rcs.dropWhile isWordChar
  if run = [] then s
  else String.mk (rest.reverse ++ '_' :: run.reverse ++ ['.', 's', 'c', 's', 's'])

/-! ## Filesystem model -/

/-- A regular file: its content and its `mtimeMs` stamp (a natural number in
the model; only equality of stamps matters to the cache key). -/
structure FileInfo where
  content : String
  mtimeMs : Nat
  deriving DecidableEq, Repr

/-- A snapshot of the filesystem: regular files and directories. -/
structure FileSystem where
  files : List (String × FileInfo)
  dirs : List (String × Nat)
  deriving DecidableEq, Repr

/-- First-match association-list lookup (the JS object property read). -/
def alook {α : Type} (k : String) : List (String × α) → Option α
  | [] => none
  | (k', v) :: rest => if k' = k then some v else alook k rest

/-- Result of a successful `fs.statSync`. -/
structure Stat where
  mtimeMs : Nat
  isFile : Bool
  deriving DecidableEq, Repr

/-- `fs.statSync`: `none` models the thrown error for a missing path. -/
def statSync (fs : FileSystem) (p : String) : Option Stat :=
  match alook p fs.files with
  | some info => some ⟨info.mtimeMs, true⟩
  | none =>
    match alook p fs.dirs with
    | some m => some ⟨m, false⟩
    | none => none

/-- `fs.existsSync`. -/
def existsSync (fs : FileSystem) (p : String) : Bool :=
  (statSync fs p).isSome

/-- Whether a regular file lives at `p` (`statSync(p).isFile()`). -/
def statIsFile (fs : FileSystem) (p : String) : Bool :=
  (alook p fs.files).isSome

/-- `fs.readFileSync`: `none` models the thrown error (missing path, or a
directory that cannot be read as a file). -/
def readFileSync (fs : FileSystem) (p : String) : Option String :=
  (alook p fs.files).map FileInfo.content

/-! ## The two-stage scanner of `jsSearchConfig` -/

/-- Head match of the literal part after an opening quote `q`:
`\.[^q]+` followed by the closing quote and `;`.  Returns the captured
characters after the dot together with the rest of the input after `;`. -/
def litAfterQuote (q : Char) : List Char → Option (List Char × List Char)
  | '.' :: cs =>
    let body := cs.takeWhile (fun c => c != q)
    let rest := cs.dropWhile (fun c => c != q)
    if body = [] then none
    else
      match rest with
      | c1 :: ';' :: rest' => if c1 = q then some ('.' :: body, rest') else none
      | _ => none
  | _ => none

/-- Scan forward for the first position where a quoted dot-literal followed
by `;` matches (the lazy `[\s\S]*?` gap before the capture group).  Returns
the capture with its quotes and the rest after `;`. -/
def tryLitsFrom : List Char → Option (List Char × List Char)
  | [] => none
  | c :: rest =>
    match (if c = '"' then litAfterQuote '"' rest
           else if c = '\'' then litAfterQuote '\'' rest
           else none) with
    | some (body, rest') => some (c :: body ++ [c], rest')
    | none => tryLitsFrom rest

/-- Strip the `(?:import|export)` keyword alternation. -/
def stripKeyword : List Char → Option (List Char)
  | 'i' :: 'm' :: 'p' :: 'o' :: 'r' :: 't' :: rest => some rest
  | 'e' :: 'x' :: 'p' :: 'o' :: 'r' :: 't' :: rest => some rest
  | _ => none

/-- One match attempt of the statement body
`(?:import|export)\s+[\s\S]*?("(?:\.[^"]+)"|'(?:\.[^']+)');` at the current
position.  After the keyword at least one whitespace character is required;
the lazy gap then allows the literal to start anywhere later. -/
def matchStmt (cs : List Char) : Option (List Char × List Char) :=
  match stripKeyword cs with
  | none => none
  | some rest =>
    match rest with
    | c :: rest' => if isJsSpace c then tryLitsFrom rest' else none
    | [] => none

/-- The global `exec` loop of the first `jsSearchConfig` pattern at positions
past the start: the `(?:^|[\r\n])` prelude must consume a newline.  Fueled by
the input length so that the skip after a match stays structural. -/
def jsScan1Go : Nat → List Char → List String
  | 0, _ => []
  | _ + 1, [] => []
  | n + 1, c :: rest =>
    if c = '\r' || c = '\n' then
      match matchStmt rest with
      | some (cap, after) => String.mk cap :: jsScan1Go n after
      | none => jsScan1Go n rest
    else jsScan1Go n rest

/-- All captures of
`/(?:^|[\r\n])(?:import|export)\s+[\s\S]*?("(?:\.[^"]+)"|'(?:\.[^']+)');/g`
over an input string, in match order. -/
def jsScan1 (s : String) : List String :=
  let cs := s.toList
  match matchStmt cs with
  | some (cap, after) => String.mk cap :: jsScan1Go after.length after
  | none => jsScan1Go cs.length cs

/-- All captures of `/"([^"]+)"|'([^']+)'/g` (the quote-unwrapping pass of
`jsSearchConfig`), in match order; the captures exclude the quotes. -/
def jsScan2Go : Nat → List Char → List String
  | 0, _ => []
  | _ + 1, [] => []
  | n + 1, c :: rest =>
    if c = '"' || c = '\'' then
      let body := rest.takeWhile (fun x => x != c)
      let after := rest.dropWhile (fun x => x != c)
      match after with
      | _ :: after' =>
        if body = [] then jsScan2Go n rest
        else String.mk body :: jsScan2Go n after'
      | [] => jsScan2Go n rest
    else jsScan2Go n rest

/-- Entry point for the second `jsSearchConfig` pattern. -/
def jsScan2 (s : String) : List String :=
  jsScan2Go s.toList.length s.toList

/-! ## The two-stage scanner of the `.scss` configuration -/

/-- Head match of `"(?:[^"]+)"|'(?:[^']+)'`: a quoted non-empty literal.
Returns the capture including its quotes, and the rest. -/
def quotedLit : List Char → Option (List Char × List Char)
  | c :: rest =>
    if c = '"' || c = '\'' then
      let body := rest.takeWhile (fun x => x != c)
      let after := rest.dropWhile (fun x => x != c)
      match after with
      | _ :: after' =>
        if body = [] then none
        else some (c :: body ++ [c], after')
      | [] => none
    else none
  | [] => none

/-- Skip `\s+` (at least one JS whitespace character) and continue with `k`. -/
def afterSpaces (cs : List Char) (k : List Char → Option (List Char × List Char)) :
    Option (List Char × List Char) :=
  match cs with
  | c :: rest => if isJsSpace c then k (rest.dropWhile isJsSpace) else none
  | [] => none

/-- Branch body `@(?:use|forward)\s+(quoted)` of the `.scss` statement
pattern (no trailing `;` is required by the regex for this branch). -/
def scssBodyUse (cs : List Char) : Option (List Char × List Char) :=
  match cs with
  | '@' :: 'u' :: 's' :: 'e' :: rest => afterSpaces rest quotedLit
  | '@' :: 'f' :: 'o' :: 'r' :: 'w' :: 'a' :: 'r' :: 'd' :: rest => afterSpaces rest quotedLit
  | _ => none

/-- Branch body `@import\s+(quoted);`. -/
def scssBodyImport (cs : List Char) : Option (List Char × List Char) :=
  match cs with
  | '@' :: 'i' :: 'm' :: 'p' :: 'o' :: 'r' :: 't' :: rest =>
    afterSpaces rest (fun cs' =>
      match quotedLit cs' with
      | some (cap, ';' :: rest') => some (cap, rest')
      | _ => none)
  | _ => none

/-- Branch body `@include\s+(?:meta\.)?load-css\(\s*(quoted)\s*\)`. -/
def scssBodyInclude (cs : List Char) : Option (List Char × List Char) :=
  match cs with
  | '@' :: 'i' :: 'n' :: 'c' :: 'l' :: 'u' :: 'd' :: 'e' :: rest =>
    afterSpaces rest (fun cs' =>
      let cs'' :=
        match cs' with
        | 'm' :: 'e' :: 't' :: 'a' :: '.' :: r => r
        | r => r
      match cs'' with
      | 'l' :: 'o' :: 'a' :: 'd' :: '-' :: 'c' :: 's' :: 's' :: '(' :: r =>
        match quotedLit (r.dropWhile isJsSpace) with
        | some (cap, r') =>
          match r'.dropWhile isJsSpace with
          | ')' :: r'' => some (cap, r'')
          | _ => none
        | none => none
      | _ => none)
  | _ => none

/-- One match attempt of the `.scss` statement pattern at a position.
`atStart` corresponds to position 0 where `^` can satisfy the prelude; the
alternatives are tried in the regex's written order, each with its
zero-width prelude before its consuming prelude. -/
def scssAttempt (atStart : Bool) (cs : List Char) : Option (List Char × List Char) :=
  (if atStart then scssBodyUse cs else none) <|>
  (match cs with
   | c :: rest => if c = '\r' || c = '\n' then scssBodyUse rest else none
   | [] => none) <|>
  (if atStart then scssBodyImport cs else none) <|>
  (match cs with
   | c :: rest => if c != '/' then scssBodyImport rest else none
   | [] => none) <|>
  (if atStart then scssBodyInclude cs else none) <|>
  (match cs with
   | c :: rest => if c != '/' then scssBodyInclude rest else none
   | [] => none)

/-- Global `exec` loop of the `.scss` statement pattern past the start. -/
def scssScan1Go : Nat → List Char → List String
  | 0, _ => []
  | _ + 1, [] => []
  | n + 1, cs =>
    match scssAttempt false cs with
    | some (cap, after) => String.mk cap :: scssScan1Go n after
    | none =>
      match cs with
      | [] => []
      | _ :: rest => scssScan1Go n rest

/-- All captures of the `.scss` statement pattern over an input string. -/
def scssScan1 (s : String) : List String :=
  let cs := s.toList
  match scssAttempt true cs with
  | some (cap, after) => String.mk cap :: scssScan1Go after.length after
  | none => scssScan1Go cs.length cs

/-- Head match of the `url(...)` alternative of the `.scss` unwrapping
pattern: a quoted or bare argument between the parentheses. -/
def urlArg : List Char → Option (List Char × List Char)
  | 'u' :: 'r' :: 'l' :: '(' :: rest =>
    (match quotedLit rest with
     | some (cap, ')' :: rest') =>
       match cap with
       | _ :: body => some (body.dropLast, rest')
       | [] => none
     | _ =>
       let body := rest.takeWhile (fun x => x != ')')
       let after := rest.dropWhile (fun x => x != ')')
       match after with
       | _ :: after' => if body = [] then none else some (body, after')
       | [] => none)
  | _ => none

/-- Global loop of
`/"([^"]+)"|'([^']+)'|url\((?:"([^"]+)"|'([^']+)'|([^)]+))\)/g`,
the unwrapping pass of the `.scss` configuration. -/
def scssScan2Go : Nat → List Char → List String
  | 0, _ => []
  | _ + 1, [] => []
  | n + 1, c :: rest =>
    if c = '"' || c = '\'' then
      let body := rest.takeWhile (fun x => x != c)
      let after := rest.dropWhile (fun x => x != c)
      match after with
      | _ :: after' =>
        if body = [] then scssScan2Go n rest
        else String.mk body :: scssScan2Go n after'
      | [] => scssScan2Go n rest
    else
      match urlArg (c :: rest) with
      | some (body, after) => String.mk body :: scssScan2Go n after
      | none => scssScan2Go n rest

/-- Entry point for the `.scss` unwrapping pattern. -/
def scssScan2 (s : String) : List String :=
  scssScan2Go s.toList.length s.toList

/-! ## The search configuration and the extraction pipeline -/

/-- One stage of an extraction pipeline: a regex stage is represented by its
global-scan function, a function stage (`parser instanceof Function`) by a
partial transform whose empty-string result counts as falsy. -/
inductive Parser where
  | pattern (scan : String → List String)
  | fn (f : String → Option String)

/-- One language entry of the search configuration. -/
structure LanguageConfig where
  parsers : List Parser
  resolvers : List (String → String)

/-- A search configuration maps file extensions to language entries. -/
def SearchConfig := List (String × LanguageConfig)

/-- Model of `findDependencyReferences( inputs, parser )`. -/
def findDependencyReferences (inputs : List String) : Parser → List String
  | .fn f =>
    inputs.foldr
      (fun input acc =>
        match f input with
        | some r => if r = "" then acc else r :: acc
        | none => acc) []
  | .pattern scan => inputs.flatMap scan

/-- The extraction loop of `getDependencies`: the file content is the sole
initial input and each parser stage rewrites the whole list. -/
def runParsers (parsers : List Parser) (content : String) : List String :=
  parsers.foldl findDependencyReferences [content]

/-- The shared `jsSearchConfig` entry. -/
def jsSearchConfig : LanguageConfig where
  parsers := [.pattern jsScan1, .pattern jsScan2]
  resolvers := [fun filename => filename ++ ".js", fun filename => filename ++ ".mjs"]

/-- The `.scss` entry of `defaultSearchConfig`. -/
def scssSearchConfig : LanguageConfig where
  parsers := [.pattern scssScan1, .pattern scssScan2]
  resolvers :=
    [fun filename => filename ++ ".scss",
     sassPartialName,
     fun filename => joinPath filename "_index.scss"]

/-- `defaultSearchConfig`. -/
def defaultSearchConfig : SearchConfig :=
  [(".js", jsSearchConfig), (".mjs", jsSearchConfig), (".scss", scssSearchConfig)]

/-- The `searchConfig[ ext ] || \x7b\x7d` lookup with the defaulted
destructuring of `parsers` and `resolvers`. -/
def configFor (cfg : SearchConfig) (ext : String) : LanguageConfig :=
  match alook ext cfg with
  | some lc => lc
  | none => ⟨[], []⟩

/-! ## The path resolver -/

/-- The resolver loop of `resolveDependencyReference`: each step transforms
the original input and the first transform that lands on a regular file
wins. -/
def tryResolvers (fs : FileSystem) (input : String) : List (String → String) → Option String
  | [] => none
  | r :: rest =>
    let resolvedPath := r input
    if existsSync fs resolvedPath && statIsFile fs resolvedPath then some resolvedPath
    else tryResolvers fs input rest

/-- Model of `resolveDependencyReference( input, resolvers )`; `none` models
the `false` returned when nothing matches. -/
def resolveDependencyReference (fs : FileSystem) (input : String)
    (resolvers : List (String → String)) : Option String :=
  if existsSync fs input && statIsFile fs input then some input
  else tryResolvers fs input resolvers

/-! ## Caches, errors, and the graph walker -/

/-- The module-global mutable state of `dependencies.js`, made explicit:
the extraction cache, the resolution cache, and a log of every
`readFileSync` call (instrumentation requested by spec section 8). -/
structure Caches where
  dependencyCache : List (String × List String)
  resolverCache : List (String × String)
  readLog : List String
  deriving DecidableEq, Repr

/-- The empty initial state of the two module-global caches. -/
def emptyCaches : Caches := ⟨[], [], []⟩

/-- The thrown errors of the walker: a failed `statSync` on the query root,
or a failed `readFileSync` (missing file or unreadable directory). -/
inductive DepError where
  | statFailed (p : String)
  | readFailed (p : String)
  deriving DecidableEq, Repr

/-- The `resolverCache[ depPath ]` read followed by the `if (!dependency)`
truthiness test: a cached empty string counts as a miss. -/
def lookupTruthy (rc : List (String × String)) (k : String) : Option String :=
  match alook k rc with
  | some v => if v = "" then none else some v
  | none => none

/-- `results.add` on the insertion-ordered JS `Set`, modelled as a
duplicate-free list. -/
def addSet (l : List String) (x : String) : List String :=
  if x ∈ l then l else l ++ [x]

/-- The cache key `` `${ filename }@${ stats.mtimeMs }` ``. -/
def cacheKey (filename : String) (mtimeMs : Nat) : String :=
  filename ++ "@" ++ toString mtimeMs

/-- The dependency loop of `getDependencies`: resolve each extracted
reference (consulting the resolution cache), skip unresolved ones, add the
resolved path, recurse through `recurse`, and union the recursive closure.
A `none` anywhere is fuel exhaustion; an `Except.error` propagates. -/
def goDeps (recurse : String → Caches → Option (Caches × Except DepError (List String)))
    (fs : FileSystem) (directory : String) (resolvers : List (String → String)) :
    List String → List String → Caches → Option (Caches × Except DepError (List String))
  | [], results, caches => some (caches, .ok results)
  | dep :: rest, results, caches =>
    let depPath := resolvePath directory dep
    match lookupTruthy caches.resolverCache depPath with
    | some dependency =>
      match recurse dependency caches with
      | none => none
      | some (caches', .error e) => some (caches', .error e)
      | some (caches', .ok childDeps) =>
        goDeps recurse fs directory resolvers rest
          (childDeps.foldl addSet (addSet results dependency)) caches'
    | none =>
      match resolveDependencyReference fs depPath resolvers with
      | none => goDeps recurse fs directory resolvers rest results caches
      | some dependency =>
        let caches1 : Caches :=
          { caches with resolverCache := (depPath, dependency) :: caches.resolverCache }
        match recurse dependency caches1 with
        | none => none
        | some (caches', .error e) => some (caches', .error e)
        | some (caches', .ok childDeps) =>
          goDeps recurse fs directory resolvers rest
            (childDeps.foldl addSet (addSet results dependency)) caches'

/-- Model of `getDependencies( filename )`, indexed by recursion fuel.
`none` is fuel exhaustion; `some (caches, .error e)` a thrown error;
`some (caches, .ok results)` the returned `Set`, in insertion order. -/
def getDeps (cfg : SearchConfig) (fs : FileSystem) :
    Nat → String → Caches → Option (Caches × Except DepError (List String))
  | 0, _, _ => none
  | fuel + 1, filename, caches =>
    let directory := dirname filename
    let lc := configFor cfg (extname filename)
    match statSync fs filename with
    | none => some (caches, .error (.statFailed filename))
    | some st =>
      let key := cacheKey filename st.mtimeMs
      match alook key caches.dependencyCache with
      | some deps => goDeps (getDeps cfg fs fuel) fs directory lc.resolvers deps [] caches
      | none =>
        let caches0 : Caches := { caches with readLog := caches.readLog ++ [filename] }
        match readFileSync fs filename with
        | none => some (caches0, .error (.readFailed filename))
        | some content =>
          let deps := runParsers lc.parsers content
          let caches1 : Caches :=
            { caches0 with dependencyCache := (key, deps) :: caches0.dependencyCache }
          goDeps (getDeps cfg fs fuel) fs directory lc.resolvers deps [] caches1

/-! ## Basic facts about the filesystem tests and the resolver -/

theorem statIsFile_exists {fs : FileSystem} {p : String} (h : statIsFile fs p = true) :
    existsSync fs p = true := by
  unfold statIsFile at h
  unfold existsSync statSync
  cases halook : alook p fs.files with
  | none => rw [halook] at h; simp at h
  | some info => simp [halook]

/-- The guard `fs.existsSync(p) && fs.statSync(p).isFile()` is equivalent to
the regular-file test alone: a path that passes `isFile` also exists. -/
theorem exists_and_isFile (fs : FileSystem) (p : String) :
    (existsSync fs p && statIsFile fs p) = statIsFile fs p := by
  cases hf : statIsFile fs p with
  | true => rw [statIsFile_exists hf]; rfl
  | false => simp [hf]

/-- The resolver loop is the first-success search over the transforms of the
original candidate. -/
theorem tryResolvers_eq_findSome (fs : FileSystem) (input : String)
    (resolvers : List (String → String)) :
    tryResolvers fs input resolvers =
      resolvers.findSome? (fun r =>
        if statIsFile fs (r input) then some (r input) else none) := by
  induction resolvers with
  | nil => rfl
  | cons r rest ih =>
    show (if (existsSync fs (r input) && statIsFile fs (r input)) then some (r input)
          else tryResolvers fs input rest) = _
    rw [exists_and_isFile, List.findSome?_cons, ih]
    cases h : statIsFile fs (r input) <;> simp [h]

/-- A successful resolution lands on a regular file. -/
theorem resolve_isFile {fs : FileSystem} {input v : String}
    {resolvers : List (String → String)}
    (h : resolveDependencyReference fs input resolvers = some v) :
    statIsFile fs v = true := by
  unfold resolveDependencyReference at h
  rw [exists_and_isFile] at h
  cases hf : statIsFile fs input with
  | true => rw [hf] at h; simp at h; rw [← h]; exact hf
  | false =>
    rw [hf] at h; simp at h
    rw [tryResolvers_eq_findSome] at h
    induction resolvers with
    | nil => simp at h
    | cons r rest ih =>
      rw [List.findSome?_cons] at h
      by_cases hr : statIsFile fs (r input) = true
      · rw [hr] at h; simp at h; rw [← h]; exact hr
      · rw [Bool.not_eq_true] at hr; rw [hr] at h; simp at h; exact ih h

/-- C4: `resolveDependencyReference` returns the candidate itself when a
regular file sits at exactly that path; otherwise it tries each resolver
step, in order, on the original candidate and returns the first transformed
path holding a regular file; non-regular-file paths (directories included)
are rejected at every step, and if every step fails the result is absent. -/
theorem claim_C4_resolver (fs : FileSystem) (input : String)
    (resolvers : List (String → String)) :
    (statIsFile fs input = true →
      resolveDependencyReference fs input resolvers = some input)
    ∧ (statIsFile fs input = false →
      resolveDependencyReference fs input resolvers =
        resolvers.findSome? (fun r =>
          if statIsFile fs (r input) then some (r input) else none))
    ∧ (statIsFile fs input = false →
      (∀ r ∈ resolvers, statIsFile fs (r input) = false) →
      resolveDependencyReference fs input resolvers = none) := by
  refine ⟨fun h => ?_, fun h => ?_, fun h hall => ?_⟩
  · unfold resolveDependencyReference
    rw [exists_and_isFile, h]
    rfl
  · unfold resolveDependencyReference
    rw [exists_and_isFile, h]
    simpa using tryResolvers_eq_findSome fs input resolvers
  · unfold resolveDependencyReference
    rw [exists_and_isFile, h]
    simp only [Bool.false_eq_true, if_false]
    rw [tryResolvers_eq_findSome]
    induction resolvers with
    | nil => rfl
    | cons r rest ih =>
      rw [List.findSome?_cons, hall r (by simp)]
      exact ih (fun r' hr' => hall r' (by simp [hr']))

/-- Witness for C4 at a concrete filesystem: the candidate `/w/a` is a
directory, `/w/a.js` a regular file. -/
theorem claim_C4_resolver_witness :
    statIsFile ⟨[("/w/a.js", ⟨"", 1⟩)], [("/w/a", 0)]⟩ "/w/a" = false ∧
    resolveDependencyReference ⟨[("/w/a.js", ⟨"", 1⟩)], [("/w/a", 0)]⟩ "/w/a"
      [fun f => f ++ ".js"] = some "/w/a.js" := by
  constructor
  · rfl
  · rw [(claim_C4_resolver ⟨[("/w/a.js", ⟨"", 1⟩)], [("/w/a", 0)]⟩ "/w/a"
      [fun f => f ++ ".js"]).2.1 (by rfl)]
    rfl

/-! ## Character-list helper lemmas -/

theorem takeWhile_append_stop {p : Char → Bool} {xs : List Char} {y : Char}
    (ys : List Char) (hxs : ∀ x ∈ xs, p x = true) (hy : p y = false) :
    (xs ++ y :: ys).takeWhile p = xs := by
  induction xs with
  | nil => simp [List.takeWhile, hy]
  | cons a l ih =>
    have ha : p a = true := hxs a (by simp)
    simp only [List.cons_append, List.takeWhile_cons, ha, if_true]
    rw [ih (fun x hx => hxs x (by simp [hx]))]

theorem dropWhile_append_stop {p : Char → Bool} {xs : List Char} {y : Char}
    (ys : List Char) (hxs : ∀ x ∈ xs, p x = true) (hy : p y = false) :
    (xs ++ y :: ys).dropWhile p = y :: ys := by
  induction xs with
  | nil => simp [List.dropWhile, hy]
  | cons a l ih =>
    have ha : p a = true := hxs a (by simp)
    simp only [List.cons_append, List.dropWhile_cons, ha, if_true]
    exact ih (fun x hx => hxs x (by simp [hx]))

/-- On a path of the shape `dir ++ "/" ++ name` with a non-empty word-only
`name`, the partial-file rewrite produces `dir ++ "/_" ++ name ++ ".scss"`,
exactly as `'_$1.scss'` does on the trailing `[\w\-]+` run. -/
theorem sassPartialName_concat (dir name : String) (hname : name.data ≠ [])
    (hword : ∀ c ∈ name.data, isWordChar c = true) :
    sassPartialName (dir ++ "/" ++ name) = dir ++ "/_" ++ name ++ ".scss" := by
  have hdata : (dir ++ "/" ++ name).data = dir.data ++ '/' :: name.data := by
    rw [String.data_append, String.data_append]
    simp
  have hrev : (dir ++ "/" ++ name).data.reverse =
      name.data.reverse ++ '/' :: dir.data.reverse := by
    rw [hdata, List.reverse_append, List.reverse_cons, List.append_assoc]
    rfl
  have hwordrev : ∀ c ∈ name.data.reverse, isWordChar c = true := by
    intro c hc; exact hword c (List.mem_reverse.mp hc)
  have hslash : isWordChar '/' = false := by decide
  unfold sassPartialName
  show (if ((dir ++ "/" ++ name).toList.reverse.takeWhile isWordChar) = [] then _
        else _) = _
  have htake : (dir ++ "/" ++ name).toList.reverse.takeWhile isWordChar =
      name.data.reverse := by
    show (dir ++ "/" ++ name).data.reverse.takeWhile isWordChar = _
    rw [hrev]; exact takeWhile_append_stop _ hwordrev hslash
  have hdrop : (dir ++ "/" ++ name).toList.reverse.dropWhile isWordChar =
      '/' :: dir.data.reverse := by
    show (dir ++ "/" ++ name).data.reverse.dropWhile isWordChar = _
    rw [hrev]; exact dropWhile_append_stop _ hwordrev hslash
  rw [htake, hdrop]
  have hne : name.data.reverse ≠ [] := by
    intro h; exact hname (by simpa using congrArg List.reverse h)
  rw [if_neg hne]
  apply String.ext
  show ('/' :: dir.data.reverse).reverse ++ '_' :: name.data.reverse.reverse ++
      ['.', 's', 'c', 's', 's'] = (dir ++ "/_" ++ name ++ ".scss").data
  rw [List.reverse_cons, List.reverse_reverse, List.reverse_reverse]
  rw [String.data_append, String.data_append, String.data_append]
  show dir.data ++ ['/'] ++ '_' :: name.data ++ ['.', 's', 'c', 's', 's'] =
      dir.data ++ ['/', '_'] ++ name.data ++ ['.', 's', 'c', 's', 's']
  simp

/-- The concrete stylesheet scenario of the spec's end-to-end property:
`theme.scss` uses `base` and only the partial `_base.scss` exists. -/
def scssExampleFS : FileSystem :=
  ⟨[("/s/theme.scss", ⟨"@use 'base';", 1⟩), ("/s/_base.scss", ⟨"", 2⟩)],
   [("/s", 0)]⟩

/-- C9: a stylesheet reference `name` in directory `dir` with no regular
file at `dir/name` or `dir/name.scss` but with `dir/_name.scss` present
resolves, under the default stylesheet resolver pipeline, to the partial
`dir/_name.scss`; and in the concrete `@use 'base';` scenario the partial
appears in the returned closure. -/
theorem claim_C9_partial_resolution (fs : FileSystem) (dir name : String)
    (hname : name.data ≠ [])
    (hword : ∀ c ∈ name.data, isWordChar c = true)
    (h0 : statIsFile fs (dir ++ "/" ++ name) = false)
    (h1 : statIsFile fs (dir ++ "/" ++ name ++ ".scss") = false)
    (h2 : statIsFile fs (dir ++ "/_" ++ name ++ ".scss") = true) :
    resolveDependencyReference fs (dir ++ "/" ++ name)
        scssSearchConfig.resolvers = some (dir ++ "/_" ++ name ++ ".scss") ∧
    ∃ c, getDeps defaultSearchConfig scssExampleFS 3 "/s/theme.scss" emptyCaches =
        some (c, .ok ["/s/_base.scss"]) := by
  constructor
  · unfold resolveDependencyReference
    rw [exists_and_isFile, h0]
    simp only [Bool.false_eq_true, if_false]
    show (if (existsSync fs (dir ++ "/" ++ name ++ ".scss") &&
            statIsFile fs (dir ++ "/" ++ name ++ ".scss")) = true then _ else _) = _
    rw [exists_and_isFile, h1]
    simp only [Bool.false_eq_true, if_false]
    show (if (existsSync fs (sassPartialName (dir ++ "/" ++ name)) &&
            statIsFile fs (sassPartialName (dir ++ "/" ++ name))) = true
          then some (sassPartialName (dir ++ "/" ++ name)) else _) = _
    rw [sassPartialName_concat dir name hname hword, exists_and_isFile, h2, if_pos rfl]
  · exact ⟨_, rfl⟩

/-- Witness for C9 at the concrete scenario filesystem. -/
theorem claim_C9_partial_resolution_witness :
    resolveDependencyReference scssExampleFS ("/s" ++ "/" ++ "base")
        scssSearchConfig.resolvers = some ("/s" ++ "/_" ++ "base" ++ ".scss") :=
  (claim_C9_partial_resolution scssExampleFS "/s" "base" (by decide) (by decide)
    (by rfl) (by rfl) (by rfl)).1

/-! ## C10: the caches are shared across factory instances -/

/-- A filesystem in which the same candidate `/d/x` can resolve to either
`/d/x.js` or `/d/x.mjs`, depending on the resolver pipeline in use. -/
def sharedCacheFS : FileSystem :=
  ⟨[("/d/a.js", ⟨"import y from \"./x\";", 1⟩),
    ("/d/x.js", ⟨"", 2⟩),
    ("/d/x.mjs", ⟨"", 3⟩)],
   [("/d", 0)]⟩

/-- A search configuration whose only resolver step appends `.js`. -/
def cfgJsOnly : SearchConfig :=
  [(".js", ⟨[.pattern jsScan1, .pattern jsScan2], [fun f => f ++ ".js"]⟩)]

/-- A search configuration whose only resolver step appends `.mjs`. -/
def cfgMjsOnly : SearchConfig :=
  [(".js", ⟨[.pattern jsScan1, .pattern jsScan2], [fun f => f ++ ".mjs"]⟩)]

/-- C10: the cache state is shared between resolver instances and its keys
ignore the search configuration.  On a fresh cache the `.mjs` instance
resolves `./x` to `/d/x.mjs`; after a prior call by the `.js` instance on
the same unchanged file, the very same `.mjs` instance call returns
`/d/x.js` instead, picked up from the shared resolution cache. -/
theorem claim_C10_shared_caches :
    (getDeps cfgMjsOnly sharedCacheFS 2 "/d/a.js" emptyCaches).map
        (fun r => r.2) = some (.ok ["/d/x.mjs"]) ∧
    ((getDeps cfgJsOnly sharedCacheFS 2 "/d/a.js" emptyCaches).bind
        (fun r => getDeps cfgMjsOnly sharedCacheFS 2 "/d/a.js" r.1)).map
        (fun r => r.2) = some (.ok ["/d/x.js"]) ∧
    (Except.ok ["/d/x.mjs"] : Except DepError (List String)) ≠
      .ok ["/d/x.js"] := by
  refine ⟨rfl, rfl, fun h => ?_⟩
  injection h with h2
  exact absurd h2 (by decide)

/-! ## C2: files with an unregistered extension -/

/-- The amended behaviour for an unregistered extension: no parser runs, so
the raw reference list is the singleton holding the entire file content; the
call reads the file once, caches that singleton, raises no error, and — as
long as the whole content does not itself resolve to a regular file — returns
the empty set. -/
theorem claim_C2_unregistered (cfg : SearchConfig) (fs : FileSystem)
    (file : String) (info : FileInfo) (fuel : Nat)
    (hfile : alook file fs.files = some info)
    (hext : alook (extname file) cfg = none)
    (hres : statIsFile fs (resolvePath (dirname file) info.content) = false)
    (hfuel : fuel ≠ 0) :
    getDeps cfg fs fuel file emptyCaches =
      some (⟨[(cacheKey file info.mtimeMs, [info.content])], [], [file]⟩,
        .ok []) := by
  obtain ⟨f, rfl⟩ : ∃ f, fuel = f + 1 := ⟨fuel - 1, by omega⟩
  have hstat : statSync fs file = some ⟨info.mtimeMs, true⟩ := by
    simp [statSync, hfile]
  have hread : readFileSync fs file = some info.content := by
    simp [readFileSync, hfile]
  have hcfg : configFor cfg (extname file) = ⟨[], []⟩ := by
    simp [configFor, hext]
  have hresolve : resolveDependencyReference fs
      (resolvePath (dirname file) info.content) [] = none := by
    unfold resolveDependencyReference
    rw [exists_and_isFile, hres]
    rfl
  simp only [getDeps, hstat, hcfg, hread, emptyCaches, alook, runParsers,
    List.foldl_nil, goDeps, lookupTruthy, hresolve]
  rfl

/-- Witness for the amended C2 at the concrete `.txt` scenario below, with a
content that does not resolve. -/
theorem claim_C2_unregistered_witness :
    getDeps defaultSearchConfig
        ⟨[("/d/a.txt", ⟨"nothing here", 1⟩)], [("/d", 0)]⟩ 1 "/d/a.txt"
        emptyCaches =
      some (⟨[("/d/a.txt@1", ["nothing here"])], [], ["/d/a.txt"]⟩, .ok []) := by
  have h := claim_C2_unregistered defaultSearchConfig
    ⟨[("/d/a.txt", ⟨"nothing here", 1⟩)], [("/d", 0)]⟩ "/d/a.txt"
    ⟨"nothing here", 1⟩ 1 (by rfl) (by rfl) (by rfl) (by decide)
  exact h

/-- The filesystem refuting C2 as stated: the whole content of the
unregistered-extension file `a.txt` is the string `b.js`, which resolves
(relative to `/d`) to the existing regular file `/d/b.js`. -/
def unregisteredFS : FileSystem :=
  ⟨[("/d/a.txt", ⟨"b.js", 1⟩), ("/d/b.js", ⟨"", 2⟩)], [("/d", 0)]⟩

/-- Counterexample to C2 as stated: for an existing readable file whose
extension has no configuration entry the walk does not always return the
empty set — here it returns the non-empty closure containing `/d/b.js`. -/
theorem claim_C2_counterexample :
    alook (extname "/d/a.txt") defaultSearchConfig = none ∧
    getDeps defaultSearchConfig unregisteredFS 3 "/d/a.txt" emptyCaches =
      some (⟨[("/d/b.js@2", []), ("/d/a.txt@1", ["b.js"])],
        [("/d/b.js", "/d/b.js")], ["/d/a.txt", "/d/b.js"]⟩,
        .ok ["/d/b.js"]) ∧
    (["/d/b.js"] : List String) ≠ [] := by
  refine ⟨rfl, rfl, by decide⟩

/-! ## C1: two-file reference cycles make the walk diverge -/

/-- A two-file cycle scenario: the first extracted reference of `A` resolves
to `B` and the first extracted reference of `B` resolves to `A` (further
references may exist but the walk never reaches them). -/
structure TwoFileCycle (cfg : SearchConfig) (fs : FileSystem) where
  A : String
  B : String
  infoA : FileInfo
  infoB : FileInfo
  depA : String
  restA : List String
  depB : String
  restB : List String
  hA : alook A fs.files = some infoA
  hB : alook B fs.files = some infoB
  hLA : runParsers (configFor cfg (extname A)).parsers infoA.content = depA :: restA
  hLB : runParsers (configFor cfg (extname B)).parsers infoB.content = depB :: restB
  hresA : resolveDependencyReference fs (resolvePath (dirname A) depA)
      (configFor cfg (extname A)).resolvers = some B
  hresB : resolveDependencyReference fs (resolvePath (dirname B) depB)
      (configFor cfg (extname B)).resolvers = some A
  hkey : cacheKey A infoA.mtimeMs ≠ cacheKey B infoB.mtimeMs

/-- The mirror image of a cycle scenario. -/
def TwoFileCycle.swap {cfg : SearchConfig} {fs : FileSystem}
    (t : TwoFileCycle cfg fs) : TwoFileCycle cfg fs where
  A := t.B
  B := t.A
  infoA := t.infoB
  infoB := t.infoA
  depA := t.depB
  restA := t.restB
  depB := t.depA
  restB := t.restA
  hA := t.hB
  hB := t.hA
  hLA := t.hLB
  hLB := t.hLA
  hresA := t.hresB
  hresB := t.hresA
  hkey := fun h => t.hkey h.symm

/-- Cache states reachable while walking a two-file cycle: the extraction
cache may know the two reference lists (with their recorded values) and the
resolution cache may map the two cycle candidates, but only to `A` or `B`. -/
def cycleInv {cfg : SearchConfig} {fs : FileSystem} (t : TwoFileCycle cfg fs)
    (c : Caches) : Prop :=
  (∀ ds, alook (cacheKey t.A t.infoA.mtimeMs) c.dependencyCache = some ds →
    ds = t.depA :: t.restA) ∧
  (∀ ds, alook (cacheKey t.B t.infoB.mtimeMs) c.dependencyCache = some ds →
    ds = t.depB :: t.restB) ∧
  (∀ v, lookupTruthy c.resolverCache (resolvePath (dirname t.A) t.depA) = some v →
    v = t.A ∨ v = t.B) ∧
  (∀ v, lookupTruthy c.resolverCache (resolvePath (dirname t.B) t.depB) = some v →
    v = t.A ∨ v = t.B)

theorem cycleInv_swap {cfg : SearchConfig} {fs : FileSystem}
    {t : TwoFileCycle cfg fs} {c : Caches} (h : cycleInv t c) :
    cycleInv t.swap c := by
  refine ⟨h.2.1, h.1, fun v hv => (h.2.2.2 v hv).symm, fun v hv => (h.2.2.1 v hv).symm⟩

theorem alook_cons {α : Type} (k : String) (v : α) (q : String)
    (l : List (String × α)) :
    alook q ((k, v) :: l) = if k = q then some v else alook q l := rfl

theorem lookupTruthy_cons (p v q : String) (rc : List (String × String)) :
    lookupTruthy ((p, v) :: rc) q =
      if p = q then (if v = "" then none else some v) else lookupTruthy rc q := by
  by_cases hp : p = q
  · simp only [lookupTruthy, alook_cons, if_pos hp]
  · simp only [lookupTruthy, alook_cons, if_neg hp]

theorem cycleInv_insertRC {cfg : SearchConfig} {fs : FileSystem}
    {t : TwoFileCycle cfg fs} {c : Caches} (h : cycleInv t c) (p v : String)
    (hv : v = t.A ∨ v = t.B) :
    cycleInv t { c with resolverCache := (p, v) :: c.resolverCache } := by
  refine ⟨h.1, h.2.1, fun w hw => ?_, fun w hw => ?_⟩
  · rw [lookupTruthy_cons] at hw
    split at hw
    · split at hw
      · cases hw
      · exact (Option.some.inj hw) ▸ hv
    · exact h.2.2.1 w hw
  · rw [lookupTruthy_cons] at hw
    split at hw
    · split at hw
      · cases hw
      · exact (Option.some.inj hw) ▸ hv
    · exact h.2.2.2 w hw

theorem cycleInv_insertDC {cfg : SearchConfig} {fs : FileSystem}
    {t : TwoFileCycle cfg fs} {c : Caches} (h : cycleInv t c) (log : List String) :
    cycleInv t { c with
      dependencyCache :=
        (cacheKey t.A t.infoA.mtimeMs, t.depA :: t.restA) :: c.dependencyCache,
      readLog := log } := by
  refine ⟨fun ds hds => ?_, fun ds hds => ?_, h.2.2.1, h.2.2.2⟩
  · rw [alook_cons, if_pos rfl] at hds
    exact (Option.some.inj hds).symm
  · rw [alook_cons, if_neg (fun hk => t.hkey hk)] at hds
    exact h.2.1 ds hds

/-- Walking the reference list of `A` from any reachable cache state runs
out of any fuel budget: the first reference leads straight back into the
cycle. -/
theorem cycle_goDeps {cfg : SearchConfig} {fs : FileSystem}
    (t : TwoFileCycle cfg fs) (f : Nat)
    (IH : ∀ c, cycleInv t c →
      getDeps cfg fs f t.A c = none ∧ getDeps cfg fs f t.B c = none)
    (c : Caches) (hInv : cycleInv t c) :
    goDeps (getDeps cfg fs f) fs (dirname t.A)
      (configFor cfg (extname t.A)).resolvers (t.depA :: t.restA) [] c = none := by
  cases hrc : lookupTruthy c.resolverCache (resolvePath (dirname t.A) t.depA) with
  | some v =>
    rcases hInv.2.2.1 v hrc with hv | hv <;> subst hv
    · simp only [goDeps, hrc, (IH c hInv).1]
    · simp only [goDeps, hrc, (IH c hInv).2]
  | none =>
    have hInv1 := cycleInv_insertRC hInv
      (resolvePath (dirname t.A) t.depA) t.B (Or.inr rfl)
    simp only [goDeps, hrc, t.hresA, (IH _ hInv1).2]

/-- One fuel step of the divergence argument, on the `A` side. -/
theorem cycle_step {cfg : SearchConfig} {fs : FileSystem}
    (t : TwoFileCycle cfg fs) (f : Nat)
    (IH : ∀ c, cycleInv t c →
      getDeps cfg fs f t.A c = none ∧ getDeps cfg fs f t.B c = none)
    (c : Caches) (hInv : cycleInv t c) :
    getDeps cfg fs (f + 1) t.A c = none := by
  have hstatA : statSync fs t.A = some ⟨t.infoA.mtimeMs, true⟩ := by
    simp [statSync, t.hA]
  have hreadA : readFileSync fs t.A = some t.infoA.content := by
    simp [readFileSync, t.hA]
  cases hdc : alook (cacheKey t.A t.infoA.mtimeMs) c.dependencyCache with
  | some ds =>
    have hds := hInv.1 ds hdc
    subst hds
    simp only [getDeps, hstatA, hdc]
    exact cycle_goDeps t f IH c hInv
  | none =>
    simp only [getDeps, hstatA, hdc, hreadA, t.hLA]
    exact cycle_goDeps t f IH _ (cycleInv_insertDC hInv _)

/-- From any reachable cache state, the walk on either member of a two-file
cycle exhausts every fuel budget. -/
theorem cycle_diverges {cfg : SearchConfig} {fs : FileSystem}
    (t : TwoFileCycle cfg fs) :
    ∀ f c, cycleInv t c →
      getDeps cfg fs f t.A c = none ∧ getDeps cfg fs f t.B c = none := by
  intro f
  induction f with
  | zero => exact fun c _ => ⟨rfl, rfl⟩
  | succ n ih =>
    intro c hc
    refine ⟨cycle_step t n ih c hc, ?_⟩
    have ih' : ∀ c, cycleInv t.swap c →
        getDeps cfg fs n t.swap.A c = none ∧ getDeps cfg fs n t.swap.B c = none :=
      fun c' hc' => by
        have := ih c' ?_
        · exact ⟨this.2, this.1⟩
        · exact cycleInv_swap (t := t.swap) hc'
    exact cycle_step t.swap n ih' c (cycleInv_swap hc)

/-- A fresh cache state is a reachable cycle state. -/
theorem cycleInv_empty {cfg : SearchConfig} {fs : FileSystem}
    (t : TwoFileCycle cfg fs) : cycleInv t emptyCaches := by
  refine ⟨fun ds hds => ?_, fun ds hds => ?_, fun v hv => ?_, fun v hv => ?_⟩
  · cases hds
  · cases hds
  · cases hv
  · cases hv

/-- C1 (corrected): on a two-file cycle — the first reference of `A`
resolves to `B` and the first reference of `B` resolves back to `A` — the
walk `getDependencies(A)` does not terminate: it exhausts every recursion
budget without producing a result, because the recursion re-expands the
cycle members without any cycle guard. -/
theorem claim_C1_cycle_diverges {cfg : SearchConfig} {fs : FileSystem}
    (t : TwoFileCycle cfg fs) (fuel : Nat) :
    getDeps cfg fs fuel t.A emptyCaches = none :=
  (cycle_diverges t fuel emptyCaches (cycleInv_empty t)).1

/-- The concrete mutual-import filesystem: `a.js` imports `./b`, `b.js`
imports `./a`. -/
def cycleFS : FileSystem :=
  ⟨[("/p/a.js", ⟨"import x from \"./b\";", 1⟩),
    ("/p/b.js", ⟨"import x from \"./a\";", 2⟩)],
   [("/p", 0)]⟩

/-- The concrete cycle scenario on `cycleFS`. -/
def cycleScenario : TwoFileCycle defaultSearchConfig cycleFS where
  A := "/p/a.js"
  B := "/p/b.js"
  infoA := ⟨"import x from \"./b\";", 1⟩
  infoB := ⟨"import x from \"./a\";", 2⟩
  depA := "./b"
  restA := []
  depB := "./a"
  restB := []
  hA := rfl
  hB := rfl
  hLA := rfl
  hLB := rfl
  hresA := rfl
  hresB := rfl
  hkey := by decide

/-- Witness for C1 on the concrete mutual-import pair. -/
theorem claim_C1_cycle_diverges_witness :
    getDeps defaultSearchConfig cycleFS 9 "/p/a.js" emptyCaches = none :=
  claim_C1_cycle_diverges cycleScenario 9

/-- Counterexample to C1 as stated: on the concrete two-file cycle no fuel
budget lets `getDependencies(A)` terminate with a result set, so it neither
terminates nor returns the claimed closure. -/
theorem claim_C1_counterexample :
    ¬ ∃ fuel c r, getDeps defaultSearchConfig cycleFS fuel "/p/a.js"
        emptyCaches = some (c, Except.ok r) := by
  rintro ⟨fuel, c, r, h⟩
  rw [show ("/p/a.js" : String) = cycleScenario.A from rfl] at h
  rw [(cycle_diverges cycleScenario fuel emptyCaches
    (cycleInv_empty cycleScenario)).1] at h
  cases h

/-! ## The resolution-cache invariant and the master preservation lemma -/

/-- Every resolution-cache entry records a successful resolution of its key
under one of the resolver pipelines reachable from the configuration (the
pipeline used is the one attached to the extension of the file whose
reference produced the candidate). -/
def RCRes (cfg : SearchConfig) (fs : FileSystem) (c : Caches) : Prop :=
  ∀ p v, alook p c.resolverCache = some v →
    ∃ ext, resolveDependencyReference fs p (configFor cfg ext).resolvers = some v

theorem RCRes_empty (cfg : SearchConfig) (fs : FileSystem) :
    RCRes cfg fs emptyCaches := by
  intro p v h
  cases h

theorem statSync_isSome_of_isFile {fs : FileSystem} {p : String}
    (h : statIsFile fs p = true) : ∃ m, statSync fs p = some ⟨m, true⟩ := by
  unfold statIsFile at h
  cases halook : alook p fs.files with
  | none => rw [halook] at h; cases h
  | some info => exact ⟨info.mtimeMs, by simp [statSync, halook]⟩

theorem readFileSync_of_isFile {fs : FileSystem} {p : String}
    (h : statIsFile fs p = true) : ∃ s, readFileSync fs p = some s := by
  unfold statIsFile at h
  cases halook : alook p fs.files with
  | none => rw [halook] at h; cases h
  | some info => exact ⟨info.content, by simp [readFileSync, halook]⟩

theorem lookupTruthy_some {rc : List (String × String)} {k v : String}
    (h : lookupTruthy rc k = some v) : alook k rc = some v ∧ v ≠ "" := by
  unfold lookupTruthy at h
  cases ha : alook k rc with
  | none => exact absurd (ha ▸ h) (by simp)
  | some w =>
    simp only [ha] at h
    by_cases hw : w = ""
    · rw [if_pos hw] at h; cases h
    · rw [if_neg hw] at h
      cases h
      exact ⟨rfl, hw⟩

theorem mem_addSet {l : List String} {a x : String} (h : x ∈ addSet l a) :
    x ∈ l ∨ x = a := by
  unfold addSet at h
  by_cases ha : a ∈ l
  · rw [if_pos ha] at h; exact Or.inl h
  · rw [if_neg ha] at h
    rcases List.mem_append.mp h with h' | h'
    · exact Or.inl h'
    · exact Or.inr (List.mem_singleton.mp h')

theorem mem_foldl_addSet {l : List String} :
    ∀ {ys : List String} {z : String},
      z ∈ l.foldl addSet ys → z ∈ ys ∨ z ∈ l := by
  induction l with
  | nil => intro ys z h; exact Or.inl h
  | cons a rest ih =>
    intro ys z h
    rcases ih (by simpa using h) with h' | h'
    · rcases mem_addSet h' with h'' | h''
      · exact Or.inl h''
      · exact Or.inr (by simp [h''])
    · exact Or.inr (by simp [h'])

/-- The dependency loop preserves the resolution-cache invariant, never
raises an error of its own, and only ever adds regular files to the result
set, provided the recursion it is handed does the same. -/
theorem goDeps_master (cfg : SearchConfig) (fs : FileSystem)
    (rec : String → Caches → Option (Caches × Except DepError (List String)))
    (hrec : ∀ d c c' res, RCRes cfg fs c → statIsFile fs d = true →
      rec d c = some (c', res) →
      RCRes cfg fs c' ∧ (∀ e, res ≠ .error e) ∧
      (∀ r, res = .ok r → ∀ x ∈ r, statIsFile fs x = true))
    (dir ext : String) :
    ∀ ds results c c' res, RCRes cfg fs c →
      (∀ x ∈ results, statIsFile fs x = true) →
      goDeps rec fs dir (configFor cfg ext).resolvers ds results c =
        some (c', res) →
      RCRes cfg fs c' ∧ (∀ e, res ≠ .error e) ∧
      (∀ r, res = .ok r → ∀ x ∈ r, statIsFile fs x = true) := by
  intro ds
  induction ds with
  | nil =>
    intro results c c' res hc hres h
    simp only [goDeps, Option.some.injEq, Prod.mk.injEq] at h
    obtain ⟨rfl, rfl⟩ := h
    refine ⟨hc, ?_, ?_⟩
    · intro e he
      cases he
    · intro r hr x hx
      cases hr
      exact hres x hx
  | cons dep rest ih =>
    intro results c c' res hc hres h
    cases hrc : lookupTruthy c.resolverCache (resolvePath dir dep) with
    | some v =>
      obtain ⟨hvrc, hvne⟩ := lookupTruthy_some hrc
      obtain ⟨ext', hext'⟩ := hc _ _ hvrc
      have hvfile : statIsFile fs v = true := resolve_isFile hext'
      simp only [goDeps, hrc] at h
      cases hrecv : rec v c with
      | none => rw [hrecv] at h; exact Option.noConfusion h
      | some p =>
        obtain ⟨c₁, res₁⟩ := p
        obtain ⟨hc₁, hne₁, hok₁⟩ := hrec v c c₁ res₁ hc hvfile hrecv
        cases res₁ with
        | error e => exact absurd rfl (hne₁ e)
        | ok childDeps =>
          simp only [hrecv] at h
          refine ih _ c₁ c' res hc₁ ?_ h
          intro x hx
          rcases mem_foldl_addSet (l := childDeps) hx with hx' | hx'
          · rcases mem_addSet hx' with hx'' | hx''
            · exact hres x hx''
            · rw [hx'']; exact hvfile
          · exact hok₁ childDeps rfl x hx'
    | none =>
      cases hresolve : resolveDependencyReference fs (resolvePath dir dep)
          (configFor cfg ext).resolvers with
      | none =>
        simp only [goDeps, hrc, hresolve] at h
        exact ih results c c' res hc hres h
      | some v =>
        have hvfile : statIsFile fs v = true := resolve_isFile hresolve
        simp only [goDeps, hrc, hresolve] at h
        have hc₀ : RCRes cfg fs
            { c with resolverCache := (resolvePath dir dep, v) :: c.resolverCache } := by
          intro p w hw
          rw [show ({ c with resolverCache :=
                (resolvePath dir dep, v) :: c.resolverCache } : Caches).resolverCache =
              (resolvePath dir dep, v) :: c.resolverCache from rfl, alook_cons] at hw
          by_cases hp : resolvePath dir dep = p
          · rw [if_pos hp] at hw
            cases hw
            exact ⟨ext, hp ▸ hresolve⟩
          · rw [if_neg hp] at hw
            exact hc p w hw
        cases hrecv : rec v
            { c with resolverCache := (resolvePath dir dep, v) :: c.resolverCache } with
        | none => rw [hrecv] at h; exact Option.noConfusion h
        | some p =>
          obtain ⟨c₁, res₁⟩ := p
          obtain ⟨hc₁, hne₁, hok₁⟩ := hrec v _ c₁ res₁ hc₀ hvfile hrecv
          cases res₁ with
          | error e => exact absurd rfl (hne₁ e)
          | ok childDeps =>
            simp only [hrecv] at h
            refine ih _ c₁ c' res hc₁ ?_ h
            intro x hx
            rcases mem_foldl_addSet (l := childDeps) hx with hx' | hx'
            · rcases mem_addSet hx' with hx'' | hx''
              · exact hres x hx''
              · rw [hx'']; exact hvfile
            · exact hok₁ childDeps rfl x hx'

/-- Master lemma for the walker: starting from any cache state satisfying
the resolution invariant, a completed call preserves the invariant, raises
an error only when its own root is not a regular file, and returns only
regular files. -/
theorem getDeps_master (cfg : SearchConfig) (fs : FileSystem) :
    ∀ fuel d c c' res, RCRes cfg fs c →
      getDeps cfg fs fuel d c = some (c', res) →
      RCRes cfg fs c' ∧
      (statIsFile fs d = true → ∀ e, res ≠ .error e) ∧
      (∀ r, res = .ok r → ∀ x ∈ r, statIsFile fs x = true) := by
  intro fuel
  induction fuel with
  | zero => intro d c c' res _ h; cases h
  | succ n ihf =>
    intro d c c' res hc h
    have hrec : ∀ d' c₀ c₁ res₁, RCRes cfg fs c₀ → statIsFile fs d' = true →
        getDeps cfg fs n d' c₀ = some (c₁, res₁) →
        RCRes cfg fs c₁ ∧ (∀ e, res₁ ≠ .error e) ∧
        (∀ r, res₁ = .ok r → ∀ x ∈ r, statIsFile fs x = true) := by
      intro d' c₀ c₁ res₁ hc₀ hd' h₁
      obtain ⟨a, b, cc⟩ := ihf d' c₀ c₁ res₁ hc₀ h₁
      exact ⟨a, b hd', cc⟩
    cases hstat : statSync fs d with
    | none =>
      simp only [getDeps, hstat] at h
      cases h
      refine ⟨hc, fun hd e hres => ?_, fun r hr => by cases hr⟩
      obtain ⟨m, hm⟩ := statSync_isSome_of_isFile hd
      rw [hm] at hstat
      cases hstat
    | some st =>
      cases hdc : alook (cacheKey d st.mtimeMs) c.dependencyCache with
      | some deps =>
        simp only [getDeps, hstat, hdc] at h
        obtain ⟨a, b, cc⟩ := goDeps_master cfg fs _ hrec (dirname d) (extname d)
          deps [] c c' res hc (fun x hx => by cases hx) h
        exact ⟨a, fun _ => b, cc⟩
      | none =>
        cases hread : readFileSync fs d with
        | none =>
          simp only [getDeps, hstat, hdc, hread] at h
          cases h
          refine ⟨fun p v hv => hc p v hv, fun hd e hres => ?_, fun r hr => by cases hr⟩
          obtain ⟨s, hs⟩ := readFileSync_of_isFile hd
          rw [hs] at hread
          cases hread
        | some content =>
          simp only [getDeps, hstat, hdc, hread] at h
          obtain ⟨a, b, cc⟩ := goDeps_master cfg fs _ hrec (dirname d) (extname d)
            _ []
            { dependencyCache := (cacheKey d st.mtimeMs,
                runParsers (configFor cfg (extname d)).parsers content) ::
                  c.dependencyCache,
              resolverCache := c.resolverCache, readLog := c.readLog ++ [d] }
            c' res (fun p v hv => hc p v hv) (fun x hx => by cases hx) h
          exact ⟨a, fun _ => b, cc⟩

/-! ## C3, C6, C7: the error contract and the cache/closure invariants -/

/-- The end-to-end script scenario of the spec: `main.js` imports `./util`,
`util.js` imports `./helpers.mjs`, `helpers.mjs` is dependency-free. -/
def chainFS : FileSystem :=
  ⟨[("/m/main.js", ⟨"import x from './util';", 1⟩),
    ("/m/util.js", ⟨"import y from './helpers.mjs';", 2⟩),
    ("/m/helpers.mjs", ⟨"", 3⟩)],
   [("/m", 0)]⟩

/-- The cache state after walking `chainFS` from its root. -/
def chainCaches : Caches :=
  ⟨[("/m/helpers.mjs@3", []), ("/m/util.js@2", ["./helpers.mjs"]),
    ("/m/main.js@1", ["./util"])],
   [("/m/helpers.mjs", "/m/helpers.mjs"), ("/m/util", "/m/util.js")],
   ["/m/main.js", "/m/util.js", "/m/helpers.mjs"]⟩

/-- C3: a query errors exactly when its root is missing or unreadable — a
missing or directory root makes the call return a propagated error, a
regular-file root never does — and an extracted reference that no resolver
step maps to an existing regular file is skipped silently: it contributes no
entry, mutates nothing, and raises no error. -/
theorem claim_C3_error_contract (cfg : SearchConfig) (fs : FileSystem)
    (root : String) (fuel : Nat) (hfuel : fuel ≠ 0) :
    (alook root fs.files = none →
      ∃ c e, getDeps cfg fs fuel root emptyCaches = some (c, .error e)) ∧
    (statIsFile fs root = true →
      ∀ c e, getDeps cfg fs fuel root emptyCaches ≠ some (c, .error e)) ∧
    (∀ rec dir resolvers dep rest results c,
      lookupTruthy c.resolverCache (resolvePath dir dep) = none →
      resolveDependencyReference fs (resolvePath dir dep) resolvers = none →
      goDeps rec fs dir resolvers (dep :: rest) results c =
        goDeps rec fs dir resolvers rest results c) := by
  obtain ⟨f, rfl⟩ : ∃ f, fuel = f + 1 := ⟨fuel - 1, by omega⟩
  refine ⟨fun hroot => ?_, fun hfile c e habs => ?_,
    fun rec dir resolvers dep rest results c h1 h2 => ?_⟩
  · cases hdirs : alook root fs.dirs with
    | none =>
      have hstat : statSync fs root = none := by simp [statSync, hroot, hdirs]
      exact ⟨emptyCaches, .statFailed root, by simp only [getDeps, hstat]⟩
    | some m =>
      have hstat : statSync fs root = some ⟨m, false⟩ := by
        simp [statSync, hroot, hdirs]
      have hread : readFileSync fs root = none := by simp [readFileSync, hroot]
      refine ⟨⟨[], [], [root]⟩, .readFailed root, ?_⟩
      simp only [getDeps, hstat, emptyCaches, alook, hread, List.nil_append]
  · obtain ⟨_, hb, _⟩ := getDeps_master cfg fs (f + 1) root emptyCaches c
      (.error e) (RCRes_empty cfg fs) habs
    exact hb hfile e rfl
  · simp only [goDeps, h1, h2]

/-- Witness for C3: querying a missing root on the concrete chain
filesystem propagates an error. -/
theorem claim_C3_error_contract_witness :
    ∃ c e, getDeps defaultSearchConfig chainFS 1 "/m/absent.js" emptyCaches =
      some (c, .error e) :=
  (claim_C3_error_contract defaultSearchConfig chainFS "/m/absent.js" 1
    (by decide)).1 rfl

/-- C6: the resolution cache is populated only on resolver success — it is
empty initially, every entry after any completed call maps its candidate to
a path some configured pipeline successfully resolves it to, a candidate
that fails under every configured pipeline is absent after any completed
call, and processing an uncached candidate whose resolution fails leaves the
caches untouched (so it is re-resolved on every later call). -/
theorem claim_C6_resolution_cache (cfg : SearchConfig) (fs : FileSystem) :
    RCRes cfg fs emptyCaches ∧
    (∀ fuel root c c' res, RCRes cfg fs c →
      getDeps cfg fs fuel root c = some (c', res) → RCRes cfg fs c') ∧
    (∀ fuel root c c' res p, RCRes cfg fs c →
      getDeps cfg fs fuel root c = some (c', res) →
      (∀ ext, resolveDependencyReference fs p (configFor cfg ext).resolvers = none) →
      alook p c'.resolverCache = none) ∧
    (∀ rec dir resolvers dep rest results c,
      alook (resolvePath dir dep) c.resolverCache = none →
      resolveDependencyReference fs (resolvePath dir dep) resolvers = none →
      goDeps rec fs dir resolvers (dep :: rest) results c =
        goDeps rec fs dir resolvers rest results c) := by
  refine ⟨RCRes_empty cfg fs,
    fun fuel root c c' res hc h => (getDeps_master cfg fs fuel root c c' res hc h).1,
    fun fuel root c c' res p hc h hfail => ?_,
    fun rec dir resolvers dep rest results c h1 h2 => ?_⟩
  · cases hv : alook p c'.resolverCache with
    | none => rfl
    | some v =>
      obtain ⟨ext, hext⟩ :=
        (getDeps_master cfg fs fuel root c c' res hc h).1 p v hv
      rw [hfail ext] at hext
      exact Option.noConfusion hext
  · have h1' : lookupTruthy c.resolverCache (resolvePath dir dep) = none := by
      unfold lookupTruthy
      rw [h1]
    simp only [goDeps, h1', h2]

/-- Witness for C6: the cache state left by walking the chain scenario
satisfies the only-successes invariant. -/
theorem claim_C6_resolution_cache_witness :
    RCRes defaultSearchConfig chainFS chainCaches :=
  (claim_C6_resolution_cache defaultSearchConfig chainFS).2.1 5 "/m/main.js"
    emptyCaches chainCaches (.ok ["/m/util.js", "/m/helpers.mjs"])
    (RCRes_empty defaultSearchConfig chainFS) rfl

/-- C7: every member of a returned closure is a path at which a regular
file exists in the filesystem snapshot (it was checked either by the
resolution that produced it or when its cache entry was created). -/
theorem claim_C7_closure_members_are_files (cfg : SearchConfig)
    (fs : FileSystem) (fuel : Nat) (root : String) (c c' : Caches)
    (r : List String) (hc : RCRes cfg fs c)
    (h : getDeps cfg fs fuel root c = some (c', .ok r)) :
    ∀ x ∈ r, statIsFile fs x = true :=
  (getDeps_master cfg fs fuel root c c' (.ok r) hc h).2.2 r rfl

/-- Witness for C7 on the chain scenario. -/
theorem claim_C7_closure_members_are_files_witness :
    statIsFile chainFS "/m/util.js" = true ∧
    statIsFile chainFS "/m/helpers.mjs" = true :=
  ⟨claim_C7_closure_members_are_files defaultSearchConfig chainFS 5
    "/m/main.js" emptyCaches chainCaches ["/m/util.js", "/m/helpers.mjs"]
    (RCRes_empty defaultSearchConfig chainFS) rfl "/m/util.js" (by simp),
   claim_C7_closure_members_are_files defaultSearchConfig chainFS 5
    "/m/main.js" emptyCaches chainCaches ["/m/util.js", "/m/helpers.mjs"]
    (RCRes_empty defaultSearchConfig chainFS) rfl "/m/helpers.mjs" (by simp)⟩

/-! ## C8: the two extraction stages of the script configuration -/

theorem jsScan2Go_nil (n : Nat) : jsScan2Go n [] = [] := by
  cases n <;> rfl

theorem jsScan1Go_nil (n : Nat) : jsScan1Go n [] = [] := by
  cases n <;> rfl

/-- The lazy gap before the capture skips any quote-free span. -/
theorem tryLitsFrom_append_skip (mid : List Char)
    (h : ∀ c ∈ mid, c ≠ '"' ∧ c ≠ '\'') (X : List Char) :
    tryLitsFrom (mid ++ X) = tryLitsFrom X := by
  induction mid with
  | nil => rfl
  | cons c rest ih =>
    have hc := h c (by simp)
    show tryLitsFrom (c :: (rest ++ X)) = _
    simp only [tryLitsFrom, if_neg hc.1, if_neg hc.2]
    exact ih (fun c' h' => h c' (by simp [h']))

/-- The quoted dot-literal matcher fires on a well-formed literal body. -/
theorem litAfterQuote_exact (q : Char) (tl : List Char) (htl : tl ≠ [])
    (hq : ∀ c ∈ tl, (c != q) = true) :
    litAfterQuote q ('.' :: (tl ++ q :: [';'])) = some ('.' :: tl, []) := by
  simp only [litAfterQuote]
  rw [takeWhile_append_stop [';'] hq (by simp),
    dropWhile_append_stop [';'] hq (by simp)]
  rw [if_neg htl]
  show (if q = q then some (('.' :: tl : List Char), ([] : List Char))
    else none) = some ('.' :: tl, [])
  rw [if_pos rfl]

/-- C8: on a script-source statement built from either keyword, any
quote-free clause, and a relative path literal in either quote style, the
first stage of the `jsSearchConfig` pipeline captures exactly the quoted
literal of the statement terminated by the separator, the second stage
unwraps the quotes from it, and the composed pipeline therefore extracts
exactly the relative path. -/
theorem claim_C8_script_pipeline (kw : String)
    (hkw : kw = "import" ∨ kw = "export") (q : Char)
    (hq : q = '"' ∨ q = '\'') (mid s : String)
    (hmid : ∀ c ∈ mid.data, c ≠ '"' ∧ c ≠ '\'')
    (hs : ∀ c ∈ s.data, c ≠ '"' ∧ c ≠ '\'')
    (hdot : s.data.head? = some '.')
    (hlen : 2 ≤ s.data.length) :
    jsScan1 (kw ++ " " ++ mid ++ q.toString ++ s ++ q.toString ++ ";") =
      [q.toString ++ s ++ q.toString] ∧
    jsScan2 (q.toString ++ s ++ q.toString) = [s] ∧
    runParsers jsSearchConfig.parsers
      (kw ++ " " ++ mid ++ q.toString ++ s ++ q.toString ++ ";") = [s] := by
  have hqdata : q.toString.data = [q] := rfl
  have hsp : (" " : String).data = [' '] := rfl
  have hsemi : (";" : String).data = [';'] := rfl
  obtain ⟨tl, hsd⟩ : ∃ tl, s.data = '.' :: tl := by
    cases hsd : s.data with
    | nil => rw [hsd] at hdot; cases hdot
    | cons c tl =>
      rw [hsd] at hdot
      simp only [List.head?_cons, Option.some.injEq] at hdot
      exact ⟨tl, by rw [hdot]⟩
  have htl : tl ≠ [] := by
    intro habs
    rw [hsd, habs] at hlen
    simp at hlen
  have htlq : ∀ c ∈ tl, (c != q) = true := by
    intro c hc
    have := hs c (by rw [hsd]; simp [hc])
    rcases hq with rfl | rfl
    · simp [this.1]
    · simp [this.2]
  have hsq : ∀ c ∈ s.data, (c != q) = true := by
    intro c hc
    have := hs c hc
    rcases hq with rfl | rfl
    · simp [this.1]
    · simp [this.2]
  have hsne : s.data ≠ [] := by rw [hsd]; simp
  -- the character stream of the assembled statement
  have hcontent : (kw ++ " " ++ mid ++ q.toString ++ s ++ q.toString ++ ";").data =
      kw.data ++ ' ' :: (mid.data ++ q :: (s.data ++ q :: [';'])) := by
    simp only [String.data_append, hqdata, hsp, hsemi, List.append_assoc,
      List.singleton_append, List.cons_append, List.nil_append]
  have hcap : (q.toString ++ s ++ q.toString).data = q :: (s.data ++ [q]) := by
    simp only [String.data_append, hqdata, List.append_assoc,
      List.singleton_append, List.cons_append, List.nil_append]
  -- the literal matcher behind the lazy gap
  have hlits : tryLitsFrom (mid.data ++ q :: (s.data ++ q :: [';'])) =
      some (q :: s.data ++ [q], []) := by
    rw [tryLitsFrom_append_skip mid.data hmid]
    have hbody : (if q = '"' then litAfterQuote '"' (s.data ++ q :: [';'])
        else if q = '\'' then litAfterQuote '\'' (s.data ++ q :: [';'])
        else none) = some ('.' :: tl, []) := by
      rcases hq with rfl | rfl
      · rw [if_pos rfl]
        rw [hsd, List.cons_append]
        exact litAfterQuote_exact '"' tl htl htlq
      · rw [if_neg (by decide), if_pos rfl]
        rw [hsd, List.cons_append]
        exact litAfterQuote_exact '\'' tl htl htlq
    show (match (if q = '"' then litAfterQuote '"' (s.data ++ q :: [';'])
        else if q = '\'' then litAfterQuote '\'' (s.data ++ q :: [';'])
        else none) with
      | some (body, rest') => some (q :: body ++ [q], rest')
      | none => tryLitsFrom (s.data ++ q :: [';'])) = some (q :: s.data ++ [q], [])
    rw [hbody, hsd]
  -- the statement matcher on the whole stream
  have hstmt : matchStmt (kw.data ++ ' ' :: (mid.data ++ q :: (s.data ++ q :: [';']))) =
      some (q :: s.data ++ [q], []) := by
    have hkwstrip : stripKeyword (kw.data ++ ' ' ::
        (mid.data ++ q :: (s.data ++ q :: [';']))) =
        some (' ' :: (mid.data ++ q :: (s.data ++ q :: [';']))) := by
      rcases hkw with rfl | rfl <;> rfl
    simp only [matchStmt, hkwstrip]
    rw [if_pos (by decide)]
    exact hlits
  have hcapstr : String.mk (q :: s.data ++ [q]) = q.toString ++ s ++ q.toString := by
    apply String.ext
    rw [hcap]
    simp
  refine ⟨?_, ?_, ?_⟩
  · show (match matchStmt (kw ++ " " ++ mid ++ q.toString ++ s ++ q.toString
        ++ ";").data with
      | some (cap, after) => String.mk cap :: jsScan1Go after.length after
      | none => jsScan1Go (kw ++ " " ++ mid ++ q.toString ++ s ++ q.toString
          ++ ";").data.length (kw ++ " " ++ mid ++ q.toString ++ s
          ++ q.toString ++ ";").data) = _
    rw [hcontent, hstmt]
    simp only [List.length_nil, jsScan1Go_nil]
    rw [hcapstr]
  · show jsScan2Go (q.toString ++ s ++ q.toString).data.length
        (q.toString ++ s ++ q.toString).data = [s]
    rw [hcap]
    simp only [List.length_cons]
    show (if q = '"' || q = '\'' then _ else _) = _
    rw [if_pos (by rcases hq with rfl | rfl <;> simp)]
    rw [show s.data ++ [q] = s.data ++ q :: [] from rfl,
      takeWhile_append_stop [] hsq (by simp),
      dropWhile_append_stop [] hsq (by simp)]
    simp only [if_neg hsne, jsScan2Go_nil]
  · have h1 : jsScan1 (kw ++ " " ++ mid ++ q.toString ++ s ++ q.toString ++ ";") =
        [q.toString ++ s ++ q.toString] := by
      show (match matchStmt (kw ++ " " ++ mid ++ q.toString ++ s ++ q.toString
          ++ ";").data with
        | some (cap, after) => String.mk cap :: jsScan1Go after.length after
        | none => jsScan1Go (kw ++ " " ++ mid ++ q.toString ++ s ++ q.toString
            ++ ";").data.length (kw ++ " " ++ mid ++ q.toString ++ s
            ++ q.toString ++ ";").data) = _
      rw [hcontent, hstmt]
      simp only [List.length_nil, jsScan1Go_nil]
      rw [hcapstr]
    have h2 : jsScan2 (q.toString ++ s ++ q.toString) = [s] := by
      show jsScan2Go (q.toString ++ s ++ q.toString).data.length
          (q.toString ++ s ++ q.toString).data = [s]
      rw [hcap]
      simp only [List.length_cons]
      show (if q = '"' || q = '\'' then _ else _) = _
      rw [if_pos (by rcases hq with rfl | rfl <;> simp)]
      rw [show s.data ++ [q] = s.data ++ q :: [] from rfl,
        takeWhile_append_stop [] hsq (by simp),
        dropWhile_append_stop [] hsq (by simp)]
      simp only [if_neg hsne, jsScan2Go_nil]
    simp only [runParsers, jsSearchConfig, List.foldl_cons, List.foldl_nil,
      findDependencyReferences, List.flatMap_cons, List.flatMap_nil,
      List.append_nil, h1, h2]

/-- Witness for C8 at a concrete statement. -/
theorem claim_C8_script_pipeline_witness :
    runParsers jsSearchConfig.parsers "import x from \"./util\";" = ["./util"] :=
  (claim_C8_script_pipeline "import" (Or.inl rfl) '"' (Or.inl rfl) "x from "
    "./util" (by decide) (by decide) (by decide) (by decide)).2.2

/-! ## C5 groundwork: cache keys are injective in the file path

The extraction-cache key is the string `filename@mtime`.  Because the
rendered mtime contains no `@`, two keys can only coincide when the
filenames coincide. -/

theorem digitChar_ne_at (k : Nat) (hk : k < 10) : Nat.digitChar k ≠ '@' := by
  interval_cases k <;> decide

theorem toDigitsCore_no_at : ∀ (fuel n : Nat) (acc : List Char),
    '@' ∉ acc → '@' ∉ Nat.toDigitsCore 10 fuel n acc := by
  intro fuel
  induction fuel with
  | zero => intro n acc h; exact h
  | succ f ih =>
    intro n acc hacc
    show '@' ∉ (if n / 10 = 0 then Nat.digitChar (n % 10) :: acc
      else Nat.toDigitsCore 10 f (n / 10) (Nat.digitChar (n % 10) :: acc))
    have hd : ('@' : Char) ∉ Nat.digitChar (n % 10) :: acc := by
      intro hmem
      rcases List.mem_cons.mp hmem with h | h
      · exact digitChar_ne_at (n % 10) (Nat.mod_lt _ (by decide)) h.symm
      · exact hacc h
    by_cases h0 : n / 10 = 0
    · rw [if_pos h0]; exact hd
    · rw [if_neg h0]; exact ih (n / 10) _ hd

theorem natToString_no_at (n : Nat) : '@' ∉ (toString n).data :=
  toDigitsCore_no_at (n + 1) n [] (by simp)

theorem first_at_split : ∀ (M N A B : List Char), '@' ∉ M → '@' ∉ N →
    M ++ '@' :: A = N ++ '@' :: B → M = N ∧ A = B := by
  intro M
  induction M with
  | nil =>
    intro N A B _ hN h
    cases N with
    | nil =>
      simp only [List.nil_append, List.cons.injEq] at h
      exact ⟨rfl, h.2⟩
    | cons d N' =>
      simp only [List.nil_append, List.cons_append, List.cons.injEq] at h
      exact absurd (h.1 ▸ List.mem_cons_self d N') (by simpa [← h.1] using hN)
  | cons c M' ih =>
    intro N A B hM hN h
    cases N with
    | nil =>
      simp only [List.cons_append, List.nil_append, List.cons.injEq] at h
      exact absurd (h.1 ▸ List.mem_cons_self c M') (by simpa [h.1] using hM)
    | cons d N' =>
      simp only [List.cons_append, List.cons.injEq] at h
      obtain ⟨h1, h2⟩ := ih N' A B (fun hm => hM (List.mem_cons_of_mem c hm))
        (fun hm => hN (List.mem_cons_of_mem d hm)) h.2
      exact ⟨by rw [h.1, h1], h2⟩

/-- Two equal cache keys name the same file. -/
theorem cacheKey_inj_file {a b : String} {m n : Nat}
    (h : cacheKey a m = cacheKey b n) : a = b := by
  have hd : a.data ++ '@' :: (toString m).data =
      b.data ++ '@' :: (toString n).data := by
    have h' := congrArg String.data h
    simpa [cacheKey, String.data_append, List.append_assoc,
      List.singleton_append] using h'
  have hrev : (toString m).data.reverse ++ '@' :: a.data.reverse =
      (toString n).data.reverse ++ '@' :: b.data.reverse := by
    have h' := congrArg List.reverse hd
    simpa [List.reverse_append] using h'
  obtain ⟨_, h2⟩ := first_at_split _ _ _ _
    (by simpa using natToString_no_at m)
    (by simpa using natToString_no_at n) hrev
  apply String.ext
  have := congrArg List.reverse h2
  simpa using this

/-! ## C5 groundwork: cache growth and the run invariant -/

/-- Growth by consing entries at the front (how both caches grow). -/
def PreExt {α : Type} (old new : List α) : Prop := ∃ t, new = t ++ old

/-- Growth by appending at the back (how the read log grows). -/
def AppExt {α : Type} (old new : List α) : Prop := ∃ t, new = old ++ t

theorem PreExt.same {α : Type} {l : List α} : PreExt l l := ⟨[], (List.nil_append l).symm⟩

theorem PreExt.chain {α : Type} {a b c : List α} :
    PreExt a b → PreExt b c → PreExt a c
  | ⟨t1, h1⟩, ⟨t2, h2⟩ => ⟨t2 ++ t1, by rw [h2, h1, List.append_assoc]⟩

theorem AppExt.sameApp {α : Type} {l : List α} : AppExt l l := ⟨[], (List.append_nil _).symm⟩

theorem AppExt.chainApp {α : Type} {a b c : List α} :
    AppExt a b → AppExt b c → AppExt a c
  | ⟨t1, h1⟩, ⟨t2, h2⟩ => ⟨t1 ++ t2, by rw [h2, h1, List.append_assoc]⟩

theorem PreExt.mem {α : Type} {a b : List α} (h : PreExt a b) {x : α}
    (hx : x ∈ a) : x ∈ b := by
  obtain ⟨t, rfl⟩ := h
  exact List.mem_append_right t hx

theorem PreExt.le_length {α : Type} {a b : List α} (h : PreExt a b) :
    a.length ≤ b.length := by
  obtain ⟨t, rfl⟩ := h
  simp

theorem AppExt.app_le_length {α : Type} {a b : List α} (h : AppExt a b) :
    a.length ≤ b.length := by
  obtain ⟨t, rfl⟩ := h
  simp

theorem PreExt.total_of_length {α : Type} {a b : List α} (h : PreExt a b)
    (hl : b.length ≤ a.length) : a = b := by
  obtain ⟨t, rfl⟩ := h
  have ht : t = [] := by
    rw [List.length_append] at hl
    exact List.eq_nil_of_length_eq_zero (by omega)
  rw [ht, List.nil_append]

theorem AppExt.app_total_of_length {α : Type} {a b : List α} (h : AppExt a b)
    (hl : b.length ≤ a.length) : a = b := by
  obtain ⟨t, rfl⟩ := h
  have ht : t = [] := by
    rw [List.length_append] at hl
    exact List.eq_nil_of_length_eq_zero (by omega)
  rw [ht, List.append_nil]

/-- Cache-state growth along a run: both caches grow at the front with their
existing bindings intact, and the read log grows at the back. -/
def Ext (c c' : Caches) : Prop :=
  PreExt c.dependencyCache c'.dependencyCache ∧
  PreExt c.resolverCache c'.resolverCache ∧
  AppExt c.readLog c'.readLog ∧
  (∀ k v, alook k c.dependencyCache = some v →
    alook k c'.dependencyCache = some v) ∧
  (∀ k v, alook k c.resolverCache = some v → alook k c'.resolverCache = some v)

theorem Ext.sameExt {c : Caches} : Ext c c :=
  ⟨PreExt.same, PreExt.same, AppExt.sameApp, fun _ _ h => h, fun _ _ h => h⟩

theorem Ext.chainExt {a b c : Caches} (h1 : Ext a b) (h2 : Ext b c) : Ext a c :=
  ⟨h1.1.chain h2.1, h1.2.1.chain h2.2.1, h1.2.2.1.chainApp h2.2.2.1,
   fun k v h => h2.2.2.2.1 k v (h1.2.2.2.1 k v h),
   fun k v h => h2.2.2.2.2 k v (h1.2.2.2.2 k v h)⟩

theorem Ext.antisymm {a b : Caches} (h1 : Ext a b) (h2 : Ext b a) : a = b := by
  obtain ⟨dc1, rc1, log1, _, _⟩ := h1
  obtain ⟨dc2, rc2, log2, _, _⟩ := h2
  cases a
  cases b
  simp only [Caches.mk.injEq]
  exact ⟨dc1.total_of_length dc2.le_length, rc1.total_of_length rc2.le_length,
    log1.app_total_of_length log2.app_le_length⟩

/-- Resolution-cache values are never the empty string (real resolutions
land on existing files, and the empty path is no file). -/
def NEV (c : Caches) : Prop :=
  ∀ p v, alook p c.resolverCache = some v → v ≠ ""

/-- Extraction-cache entries of file keys hold the canonical parse of that
file's content. -/
def DCOK (cfg : SearchConfig) (fs : FileSystem) (c : Caches) : Prop :=
  ∀ p info ds, alook p fs.files = some info →
    alook (cacheKey p info.mtimeMs) c.dependencyCache = some ds →
    ds = runParsers (configFor cfg (extname p)).parsers info.content

/-- Every extraction-cache key is the key of some regular file. -/
def DCKeys (fs : FileSystem) (c : Caches) : Prop :=
  ∀ k ds, alook k c.dependencyCache = some ds →
    ∃ p info, alook p fs.files = some info ∧ k = cacheKey p info.mtimeMs

/-- The standing invariant of every cache state reachable by runs. -/
def InvC (cfg : SearchConfig) (fs : FileSystem) (c : Caches) : Prop :=
  NEV c ∧ DCOK cfg fs c ∧ DCKeys fs c

theorem InvC_empty (cfg : SearchConfig) (fs : FileSystem) :
    InvC cfg fs emptyCaches :=
  ⟨fun p v h => (by cases h), fun p info ds _ h => (by cases h),
   fun k ds h => (by cases h)⟩

/-- Under the no-empty-values invariant the truthiness test is transparent. -/
theorem lookupTruthy_eq_alook {c : Caches} (hnev : NEV c) (p : String) :
    lookupTruthy c.resolverCache p = alook p c.resolverCache := by
  unfold lookupTruthy
  cases ha : alook p c.resolverCache with
  | none => rfl
  | some v => simp only [ha, if_neg (hnev p v ha)]

theorem statIsFile_ne_empty {fs : FileSystem} {v : String}
    (hempty : alook "" fs.files = none) (h : statIsFile fs v = true) :
    v ≠ "" := by
  intro hv
  rw [hv] at h
  unfold statIsFile at h
  rw [hempty] at h
  cases h

/-- A successful stat-then-read pins down the file record. -/
theorem stat_read_file {fs : FileSystem} {d content : String} {st : Stat}
    (hstat : statSync fs d = some st)
    (hread : readFileSync fs d = some content) :
    ∃ info, alook d fs.files = some info ∧ info.content = content ∧
      st.mtimeMs = info.mtimeMs := by
  cases ha : alook d fs.files with
  | none =>
    unfold readFileSync at hread
    rw [ha] at hread
    cases hread
  | some info =>
    refine ⟨info, rfl, ?_, ?_⟩
    · unfold readFileSync at hread
      rw [ha] at hread
      exact Option.some.inj hread
    · unfold statSync at hstat
      simp only [ha] at hstat
      have h' := Option.some.inj hstat
      rw [← h']

/-! ## C5 groundwork: the step lemma -/

/-- Caching a fresh successful resolution preserves the invariant and grows
the state. -/
theorem insertRC_invC {cfg : SearchConfig} {fs : FileSystem} {c : Caches}
    (hempty : alook "" fs.files = none) (hinv : InvC cfg fs c)
    {p v : String} (hfresh : alook p c.resolverCache = none)
    (hfile : statIsFile fs v = true) :
    InvC cfg fs { c with resolverCache := (p, v) :: c.resolverCache } ∧
    Ext c { c with resolverCache := (p, v) :: c.resolverCache } := by
  constructor
  · refine ⟨fun q w hw => ?_, hinv.2.1, hinv.2.2⟩
    rw [show ({ c with resolverCache := (p, v) :: c.resolverCache } :
        Caches).resolverCache = (p, v) :: c.resolverCache from rfl,
      alook_cons] at hw
    by_cases hq : p = q
    · rw [if_pos hq] at hw
      cases hw
      exact statIsFile_ne_empty hempty hfile
    · rw [if_neg hq] at hw
      exact hinv.1 q w hw
  · refine ⟨PreExt.same, ⟨[(p, v)], rfl⟩, AppExt.sameApp, fun k w h => h,
      fun k w h => ?_⟩
    rw [show ({ c with resolverCache := (p, v) :: c.resolverCache } :
        Caches).resolverCache = (p, v) :: c.resolverCache from rfl,
      alook_cons]
    by_cases hk : p = k
    · subst hk
      rw [hfresh] at h
      cases h
    · rw [if_neg hk]
      exact h

/-- Caching a fresh extraction (with its read-log entry) preserves the
invariant and grows the state. -/
theorem insertDC_invC {cfg : SearchConfig} {fs : FileSystem} {c : Caches}
    (hinv : InvC cfg fs c) {d : String} {info : FileInfo}
    (hd : alook d fs.files = some info)
    (hfresh : alook (cacheKey d info.mtimeMs) c.dependencyCache = none) :
    InvC cfg fs { c with
      dependencyCache := (cacheKey d info.mtimeMs,
        runParsers (configFor cfg (extname d)).parsers info.content) ::
        c.dependencyCache,
      readLog := c.readLog ++ [d] } ∧
    Ext c { c with
      dependencyCache := (cacheKey d info.mtimeMs,
        runParsers (configFor cfg (extname d)).parsers info.content) ::
        c.dependencyCache,
      readLog := c.readLog ++ [d] } := by
  constructor
  · refine ⟨hinv.1, fun q infoq ds hq hds => ?_, fun k ds hds => ?_⟩
    · rw [show ({ c with
          dependencyCache := (cacheKey d info.mtimeMs,
            runParsers (configFor cfg (extname d)).parsers info.content) ::
            c.dependencyCache,
          readLog := c.readLog ++ [d] } : Caches).dependencyCache =
          (cacheKey d info.mtimeMs,
            runParsers (configFor cfg (extname d)).parsers info.content) ::
            c.dependencyCache from rfl, alook_cons] at hds
      by_cases hkey : cacheKey d info.mtimeMs = cacheKey q infoq.mtimeMs
      · rw [if_pos hkey] at hds
        cases hds
        obtain rfl := cacheKey_inj_file hkey
        rw [hd] at hq
        cases hq
        rfl
      · rw [if_neg hkey] at hds
        exact hinv.2.1 q infoq ds hq hds
    · rw [show ({ c with
          dependencyCache := (cacheKey d info.mtimeMs,
            runParsers (configFor cfg (extname d)).parsers info.content) ::
            c.dependencyCache,
          readLog := c.readLog ++ [d] } : Caches).dependencyCache =
          (cacheKey d info.mtimeMs,
            runParsers (configFor cfg (extname d)).parsers info.content) ::
            c.dependencyCache from rfl, alook_cons] at hds
      by_cases hkey : cacheKey d info.mtimeMs = k
      · exact ⟨d, info, hd, hkey.symm⟩
      · rw [if_neg hkey] at hds
        exact hinv.2.2 k ds hds
  · refine ⟨⟨[(cacheKey d info.mtimeMs,
      runParsers (configFor cfg (extname d)).parsers info.content)], rfl⟩,
      PreExt.same, ⟨[d], rfl⟩, fun k ds h => ?_, fun k w h => h⟩
    rw [show ({ c with
        dependencyCache := (cacheKey d info.mtimeMs,
          runParsers (configFor cfg (extname d)).parsers info.content) ::
          c.dependencyCache,
        readLog := c.readLog ++ [d] } : Caches).dependencyCache =
        (cacheKey d info.mtimeMs,
          runParsers (configFor cfg (extname d)).parsers info.content) ::
          c.dependencyCache from rfl, alook_cons]
    by_cases hk : cacheKey d info.mtimeMs = k
    · subst hk
      rw [hfresh] at h
      cases h
    · rw [if_neg hk]
      exact h

/-- The dependency loop preserves the invariant and grows the state,
provided its recursion does. -/
theorem goDeps_ext (cfg : SearchConfig) (fs : FileSystem)
    (hempty : alook "" fs.files = none)
    (rec : String → Caches → Option (Caches × Except DepError (List String)))
    (hrec : ∀ d c c' res, InvC cfg fs c → rec d c = some (c', res) →
      InvC cfg fs c' ∧ Ext c c')
    (dir : String) (R : List (String → String)) :
    ∀ ds results c c' res, InvC cfg fs c →
      goDeps rec fs dir R ds results c = some (c', res) →
      InvC cfg fs c' ∧ Ext c c' := by
  intro ds
  induction ds with
  | nil =>
    intro results c c' res hc h
    simp only [goDeps, Option.some.injEq, Prod.mk.injEq] at h
    obtain ⟨rfl, rfl⟩ := h
    exact ⟨hc, Ext.sameExt⟩
  | cons dep rest ih =>
    intro results c c' res hc h
    cases hrc : lookupTruthy c.resolverCache (resolvePath dir dep) with
    | some v =>
      simp only [goDeps, hrc] at h
      cases hrecv : rec v c with
      | none => rw [hrecv] at h; exact Option.noConfusion h
      | some P =>
        obtain ⟨c₁, res₁⟩ := P
        obtain ⟨hc₁, hext₁⟩ := hrec v c c₁ res₁ hc hrecv
        cases res₁ with
        | error e =>
          simp only [hrecv, Option.some.injEq, Prod.mk.injEq] at h
          obtain ⟨rfl, rfl⟩ := h
          exact ⟨hc₁, hext₁⟩
        | ok childDeps =>
          simp only [hrecv] at h
          obtain ⟨hc', hext'⟩ := ih _ c₁ c' res hc₁ h
          exact ⟨hc', hext₁.chainExt hext'⟩
    | none =>
      cases hres : resolveDependencyReference fs (resolvePath dir dep) R with
      | none =>
        simp only [goDeps, hrc, hres] at h
        exact ih results c c' res hc h
      | some v =>
        have hfile := resolve_isFile hres
        have hfresh : alook (resolvePath dir dep) c.resolverCache = none := by
          rw [← lookupTruthy_eq_alook hc.1]
          exact hrc
        obtain ⟨hcI, hextI⟩ := insertRC_invC hempty hc hfresh hfile
        simp only [goDeps, hrc, hres] at h
        cases hrecv : rec v { c with resolverCache :=
            (resolvePath dir dep, v) :: c.resolverCache } with
        | none => rw [hrecv] at h; exact Option.noConfusion h
        | some P =>
          obtain ⟨c₁, res₁⟩ := P
          obtain ⟨hc₁, hext₁⟩ := hrec v _ c₁ res₁ hcI hrecv
          cases res₁ with
          | error e =>
            simp only [hrecv, Option.some.injEq, Prod.mk.injEq] at h
            obtain ⟨rfl, rfl⟩ := h
            exact ⟨hc₁, hextI.chainExt hext₁⟩
          | ok childDeps =>
            simp only [hrecv] at h
            obtain ⟨hc', hext'⟩ := ih _ c₁ c' res hc₁ h
            exact ⟨hc', (hextI.chainExt hext₁).chainExt hext'⟩

/-- A completed call preserves the invariant and only grows the caches. -/
theorem getDeps_ext (cfg : SearchConfig) (fs : FileSystem)
    (hempty : alook "" fs.files = none) :
    ∀ fuel d c c' res, InvC cfg fs c →
      getDeps cfg fs fuel d c = some (c', res) →
      InvC cfg fs c' ∧ Ext c c' := by
  intro fuel
  induction fuel with
  | zero => intro d c c' res _ h; exact Option.noConfusion h
  | succ n ihf =>
    intro d c c' res hc h
    cases hstat : statSync fs d with
    | none =>
      simp only [getDeps, hstat, Option.some.injEq, Prod.mk.injEq] at h
      obtain ⟨rfl, rfl⟩ := h
      exact ⟨hc, Ext.sameExt⟩
    | some st =>
      cases hdc : alook (cacheKey d st.mtimeMs) c.dependencyCache with
      | some deps =>
        simp only [getDeps, hstat, hdc] at h
        exact goDeps_ext cfg fs hempty _
          (fun d' c₀ c₁ r₁ hx hy => ihf d' c₀ c₁ r₁ hx hy)
          (dirname d) _ deps [] c c' res hc h
      | none =>
        cases hread : readFileSync fs d with
        | none =>
          simp only [getDeps, hstat, hdc, hread, Option.some.injEq,
            Prod.mk.injEq] at h
          obtain ⟨rfl, rfl⟩ := h
          refine ⟨⟨hc.1, hc.2.1, hc.2.2⟩, PreExt.same, PreExt.same, ⟨[d], rfl⟩,
            fun k v hv => hv, fun k v hv => hv⟩
        | some content =>
          obtain ⟨info, hinfo, hcont, hmt⟩ := stat_read_file hstat hread
          simp only [getDeps, hstat, hdc, hread] at h
          rw [show st.mtimeMs = info.mtimeMs from hmt,
            show content = info.content from hcont.symm] at h
          have hfresh : alook (cacheKey d info.mtimeMs) c.dependencyCache =
              none := by
            rw [← hmt]
            exact hdc
          obtain ⟨hcI, hextI⟩ := insertDC_invC hc hinfo hfresh
          obtain ⟨hc', hext'⟩ := goDeps_ext cfg fs hempty _
            (fun d' c₀ c₁ r₁ hx hy => ihf d' c₀ c₁ r₁ hx hy)
            (dirname d) _ _ [] _ c' res hcI h
          exact ⟨hc', hextI.chainExt hext'⟩

/-! ## C5 groundwork: result membership -/

theorem mem_addSet_self (l : List String) (x : String) : x ∈ addSet l x := by
  unfold addSet
  by_cases h : x ∈ l
  · rw [if_pos h]; exact h
  · rw [if_neg h]; simp

theorem addSet_sub {l : List String} {x : String} (a : String) (h : x ∈ l) :
    x ∈ addSet l a := by
  unfold addSet
  split
  · exact h
  · exact List.mem_append_left _ h

theorem foldl_addSet_sub (cs : List String) :
    ∀ {acc : List String} {x : String}, x ∈ acc → x ∈ cs.foldl addSet acc := by
  induction cs with
  | nil => intro acc x h; exact h
  | cons a rest ih =>
    intro acc x h
    simp only [List.foldl_cons]
    exact ih (addSet_sub a h)

theorem foldl_addSet_of_mem (cs : List String) :
    ∀ {acc : List String} {x : String}, x ∈ cs → x ∈ cs.foldl addSet acc := by
  induction cs with
  | nil => intro acc x h; cases h
  | cons a rest ih =>
    intro acc x h
    simp only [List.foldl_cons]
    rcases List.mem_cons.mp h with rfl | h'
    · exact foldl_addSet_sub rest (mem_addSet_self acc x)
    · exact ih h'

theorem alook_mem {α : Type} {l : List (String × α)} {k : String} {v : α}
    (h : alook k l = some v) : (k, v) ∈ l := by
  induction l with
  | nil => cases h
  | cons e rest ih =>
    obtain ⟨k', v'⟩ := e
    rw [alook_cons] at h
    by_cases hk : k' = k
    · rw [if_pos hk] at h
      cases h
      rw [hk]
      exact List.mem_cons_self _ _
    · rw [if_neg hk] at h
      exact List.mem_cons_of_mem _ (ih h)

/-- The loop only ever grows its accumulator. -/
theorem goDeps_acc_sub
    (rec : String → Caches → Option (Caches × Except DepError (List String)))
    (fs : FileSystem) (dir : String) (R : List (String → String)) :
    ∀ ds results c c' r,
      goDeps rec fs dir R ds results c = some (c', .ok r) →
      ∀ x ∈ results, x ∈ r := by
  intro ds
  induction ds with
  | nil =>
    intro results c c' r h x hx
    simp only [goDeps, Option.some.injEq, Prod.mk.injEq] at h
    obtain ⟨rfl, hr⟩ := h
    cases hr
    exact hx
  | cons dep rest ih =>
    intro results c c' r h x hx
    cases hrc : lookupTruthy c.resolverCache (resolvePath dir dep) with
    | some v =>
      simp only [goDeps, hrc] at h
      cases hrecv : rec v c with
      | none => rw [hrecv] at h; exact Option.noConfusion h
      | some P =>
        obtain ⟨c₁, res₁⟩ := P
        cases res₁ with
        | error e =>
          simp only [hrecv, Option.some.injEq, Prod.mk.injEq] at h
          cases h.2
        | ok childDeps =>
          simp only [hrecv] at h
          exact ih _ c₁ c' r h x
            (foldl_addSet_sub childDeps (addSet_sub v hx))
    | none =>
      cases hres : resolveDependencyReference fs (resolvePath dir dep) R with
      | none =>
        simp only [goDeps, hrc, hres] at h
        exact ih results _ c' r h x hx
      | some v =>
        simp only [goDeps, hrc, hres] at h
        cases hrecv : rec v { c with resolverCache :=
            (resolvePath dir dep, v) :: c.resolverCache } with
        | none => rw [hrecv] at h; exact Option.noConfusion h
        | some P =>
          obtain ⟨c₁, res₁⟩ := P
          cases res₁ with
          | error e =>
            simp only [hrecv, Option.some.injEq, Prod.mk.injEq] at h
            cases h.2
          | ok childDeps =>
            simp only [hrecv] at h
            exact ih _ c₁ c' r h x
              (foldl_addSet_sub childDeps (addSet_sub v hx))

/-- Values lemma, loop level: along a completed loop, every fresh
resolution-cache value lands in the results, and every result member is a
resolution-cache value (or was an accumulator member). -/
theorem goDeps_values (cfg : SearchConfig) (fs : FileSystem)
    (hempty : alook "" fs.files = none) (n : Nat)
    (ihf : ∀ d c c' r, InvC cfg fs c →
      getDeps cfg fs n d c = some (c', .ok r) →
      (∀ p w, alook p c'.resolverCache = some w →
        alook p c.resolverCache = some w ∨ w ∈ r) ∧
      (∀ x ∈ r, ∃ p, alook p c'.resolverCache = some x))
    (dir : String) (R : List (String → String)) :
    ∀ ds results c c' r, InvC cfg fs c →
      goDeps (getDeps cfg fs n) fs dir R ds results c = some (c', .ok r) →
      (∀ p w, alook p c'.resolverCache = some w →
        alook p c.resolverCache = some w ∨ w ∈ r) ∧
      (∀ x ∈ r, x ∈ results ∨ ∃ p, alook p c'.resolverCache = some x) := by
  have hextRec : ∀ d c c' res, InvC cfg fs c →
      getDeps cfg fs n d c = some (c', res) → InvC cfg fs c' ∧ Ext c c' :=
    getDeps_ext cfg fs hempty n
  intro ds
  induction ds with
  | nil =>
    intro results c c' r hc h
    simp only [goDeps, Option.some.injEq, Prod.mk.injEq] at h
    obtain ⟨rfl, hr⟩ := h
    cases hr
    exact ⟨fun p w hw => Or.inl hw, fun x hx => Or.inl hx⟩
  | cons dep rest ih =>
    intro results c c' r hc h
    cases hrc : lookupTruthy c.resolverCache (resolvePath dir dep) with
    | some v =>
      simp only [goDeps, hrc] at h
      cases hrecv : getDeps cfg fs n v c with
      | none => rw [hrecv] at h; exact Option.noConfusion h
      | some P =>
        obtain ⟨c₁, res₁⟩ := P
        cases res₁ with
        | error e =>
          simp only [hrecv, Option.some.injEq, Prod.mk.injEq] at h
          cases h.2
        | ok childDeps =>
          simp only [hrecv] at h
          obtain ⟨hc₁, hext₁⟩ := hextRec v c c₁ _ hc hrecv
          obtain ⟨a₁, b₁⟩ := ihf v c c₁ childDeps hc hrecv
          obtain ⟨a₂, b₂⟩ := ih _ c₁ c' r hc₁ h
          have hextTail : Ext c₁ c' :=
            (goDeps_ext cfg fs hempty _ hextRec dir R rest _ c₁ c' _ hc₁ h).2
          have hvr : v ∈ r :=
            goDeps_acc_sub _ fs dir R rest _ c₁ c' r h v
              (foldl_addSet_sub childDeps (mem_addSet_self results v))
          refine ⟨fun p w hw => ?_, fun x hx => ?_⟩
          · rcases a₂ p w hw with hw₁ | hw₁
            · rcases a₁ p w hw₁ with hw₂ | hw₂
              · exact Or.inl hw₂
              · exact Or.inr (goDeps_acc_sub _ fs dir R rest _ c₁ c' r h w
                  (foldl_addSet_of_mem childDeps hw₂))
            · exact Or.inr hw₁
          · rcases b₂ x hx with hx₁ | hx₁
            · rcases mem_foldl_addSet (l := childDeps) hx₁ with hx₂ | hx₂
              · rcases mem_addSet hx₂ with hx₃ | hx₃
                · exact Or.inl hx₃
                · obtain ⟨hvrc, _⟩ := lookupTruthy_some hrc
                  refine Or.inr ⟨resolvePath dir dep, ?_⟩
                  rw [hx₃]
                  exact hextTail.2.2.2.2 _ _ (hext₁.2.2.2.2 _ _ hvrc)
              · obtain ⟨p, hp⟩ := b₁ x hx₂
                exact Or.inr ⟨p, hextTail.2.2.2.2 _ _ hp⟩
            · exact Or.inr hx₁
    | none =>
      cases hres : resolveDependencyReference fs (resolvePath dir dep) R with
      | none =>
        simp only [goDeps, hrc, hres] at h
        obtain ⟨a₁, b₁⟩ := ih results c c' r hc h
        exact ⟨a₁, b₁⟩
      | some v =>
        have hfile := resolve_isFile hres
        have hfresh : alook (resolvePath dir dep) c.resolverCache = none := by
          rw [← lookupTruthy_eq_alook hc.1]
          exact hrc
        obtain ⟨hcI, hextI⟩ := insertRC_invC hempty hc hfresh hfile
        simp only [goDeps, hrc, hres] at h
        cases hrecv : getDeps cfg fs n v { c with resolverCache :=
            (resolvePath dir dep, v) :: c.resolverCache } with
        | none => rw [hrecv] at h; exact Option.noConfusion h
        | some P =>
          obtain ⟨c₁, res₁⟩ := P
          cases res₁ with
          | error e =>
            simp only [hrecv, Option.some.injEq, Prod.mk.injEq] at h
            cases h.2
          | ok childDeps =>
            simp only [hrecv] at h
            obtain ⟨hc₁, hext₁⟩ := hextRec v _ c₁ _ hcI hrecv
            obtain ⟨a₁, b₁⟩ := ihf v _ c₁ childDeps hcI hrecv
            obtain ⟨a₂, b₂⟩ := ih _ c₁ c' r hc₁ h
            have hextTail : Ext c₁ c' :=
              (goDeps_ext cfg fs hempty _ hextRec dir R rest _ c₁ c' _ hc₁ h).2
            have hvr : v ∈ r :=
              goDeps_acc_sub _ fs dir R rest _ c₁ c' r h v
                (foldl_addSet_sub childDeps (mem_addSet_self results v))
            refine ⟨fun p w hw => ?_, fun x hx => ?_⟩
            · rcases a₂ p w hw with hw₁ | hw₁
              · rcases a₁ p w hw₁ with hw₂ | hw₂
                · rw [show ({ c with resolverCache :=
                      (resolvePath dir dep, v) :: c.resolverCache } :
                      Caches).resolverCache =
                      (resolvePath dir dep, v) :: c.resolverCache from rfl,
                    alook_cons] at hw₂
                  by_cases hp : resolvePath dir dep = p
                  · rw [if_pos hp] at hw₂
                    cases hw₂
                    exact Or.inr hvr
                  · rw [if_neg hp] at hw₂
                    exact Or.inl hw₂
                · exact Or.inr (goDeps_acc_sub _ fs dir R rest _ c₁ c' r h w
                    (foldl_addSet_of_mem childDeps hw₂))
              · exact Or.inr hw₁
            · rcases b₂ x hx with hx₁ | hx₁
              · rcases mem_foldl_addSet (l := childDeps) hx₁ with hx₂ | hx₂
                · rcases mem_addSet hx₂ with hx₃ | hx₃
                  · exact Or.inl hx₃
                  · refine Or.inr ⟨resolvePath dir dep, ?_⟩
                    rw [hx₃]
                    refine hextTail.2.2.2.2 _ _ (hext₁.2.2.2.2 _ _ ?_)
                    rw [show ({ c with resolverCache :=
                        (resolvePath dir dep, v) :: c.resolverCache } :
                        Caches).resolverCache =
                        (resolvePath dir dep, v) :: c.resolverCache from rfl,
                      alook_cons, if_pos rfl]
                · obtain ⟨p, hp⟩ := b₁ x hx₂
                  exact Or.inr ⟨p, hextTail.2.2.2.2 _ _ hp⟩
              · exact Or.inr hx₁

/-- Values lemma: along a completed call, every fresh resolution-cache
value lands in the result set, and every result member is the value of some
resolution-cache entry of the final state. -/
theorem getDeps_values (cfg : SearchConfig) (fs : FileSystem)
    (hempty : alook "" fs.files = none) :
    ∀ fuel d c c' r, InvC cfg fs c →
      getDeps cfg fs fuel d c = some (c', .ok r) →
      (∀ p w, alook p c'.resolverCache = some w →
        alook p c.resolverCache = some w ∨ w ∈ r) ∧
      (∀ x ∈ r, ∃ p, alook p c'.resolverCache = some x) := by
  intro fuel
  induction fuel with
  | zero => intro d c c' r _ h; exact Option.noConfusion h
  | succ n ihf =>
    intro d c c' r hc h
    cases hstat : statSync fs d with
    | none =>
      simp only [getDeps, hstat, Option.some.injEq, Prod.mk.injEq] at h
      cases h.2
    | some st =>
      cases hdc : alook (cacheKey d st.mtimeMs) c.dependencyCache with
      | some deps =>
        simp only [getDeps, hstat, hdc] at h
        obtain ⟨a, b⟩ := goDeps_values cfg fs hempty n ihf (dirname d) _
          deps [] c c' r hc h
        exact ⟨a, fun x hx => (b x hx).resolve_left (fun habs => by cases habs)⟩
      | none =>
        cases hread : readFileSync fs d with
        | none =>
          simp only [getDeps, hstat, hdc, hread, Option.some.injEq,
            Prod.mk.injEq] at h
          cases h.2
        | some content =>
          obtain ⟨info, hinfo, hcont, hmt⟩ := stat_read_file hstat hread
          simp only [getDeps, hstat, hdc, hread] at h
          rw [show st.mtimeMs = info.mtimeMs from hmt,
            show content = info.content from hcont.symm] at h
          have hfresh : alook (cacheKey d info.mtimeMs) c.dependencyCache =
              none := by
            rw [← hmt]
            exact hdc
          obtain ⟨hcI, hextI⟩ := insertDC_invC hc hinfo hfresh
          obtain ⟨a, b⟩ := goDeps_values cfg fs hempty n ihf (dirname d) _
            _ [] _ c' r hcI h
          exact ⟨a, fun x hx => (b x hx).resolve_left (fun habs => by cases habs)⟩

/-! ## C5 groundwork: provenance of resolution-cache entries -/

theorem preExt_cons_elim {α : Type} {x : List α} {a : α} {l : List α}
    (h : PreExt x (a :: l)) : x = a :: l ∨ PreExt x l := by
  obtain ⟨t, ht⟩ := h
  cases t with
  | nil => exact Or.inl (by rw [ht]; rfl)
  | cons b t' =>
    simp only [List.cons_append, List.cons.injEq] at ht
    exact Or.inr ⟨t', ht.2⟩

/-- A resolution-cache entry together with the completed expansion of its
value that ran right after the entry was inserted.  The final state of that
expansion embeds into the top state with its bindings intact. -/
def Created (cfg : SearchConfig) (fs : FileSystem) (p w : String)
    (post : List (String × String)) (top : Caches) : Prop :=
  ∃ fuel cc cc' r, cc.resolverCache = (p, w) :: post ∧ InvC cfg fs cc ∧
    getDeps cfg fs fuel w cc = some (cc', .ok r) ∧
    PreExt cc'.resolverCache top.resolverCache ∧
    (∀ k x, alook k cc'.dependencyCache = some x →
      alook k top.dependencyCache = some x) ∧
    (∀ k x, alook k cc'.resolverCache = some x →
      alook k top.resolverCache = some x)

theorem Created.lift {cfg : SearchConfig} {fs : FileSystem} {p w : String}
    {post : List (String × String)} {top top' : Caches}
    (h : Created cfg fs p w post top) (hle : Ext top top') :
    Created cfg fs p w post top' := by
  obtain ⟨fuel, cc, cc', r, h1, h2, h3, h4, h5, h6⟩ := h
  exact ⟨fuel, cc, cc', r, h1, h2, h3, h4.chain hle.2.1,
    fun k x hx => hle.2.2.2.1 k x (h5 k x hx),
    fun k x hx => hle.2.2.2.2 k x (h6 k x hx)⟩

/-- Provenance, loop level. -/
theorem goDeps_prov (cfg : SearchConfig) (fs : FileSystem)
    (hempty : alook "" fs.files = none) (n : Nat)
    (ihf : ∀ d c c' r, InvC cfg fs c →
      getDeps cfg fs n d c = some (c', .ok r) →
      ∀ pre p w post, c'.resolverCache = pre ++ (p, w) :: post →
        PreExt ((p, w) :: post) c.resolverCache ∨
        Created cfg fs p w post c')
    (dir : String) (R : List (String → String)) :
    ∀ ds results c c' r, InvC cfg fs c →
      goDeps (getDeps cfg fs n) fs dir R ds results c = some (c', .ok r) →
      ∀ pre p w post, c'.resolverCache = pre ++ (p, w) :: post →
        PreExt ((p, w) :: post) c.resolverCache ∨
        Created cfg fs p w post c' := by
  have hextRec : ∀ d c c' res, InvC cfg fs c →
      getDeps cfg fs n d c = some (c', res) → InvC cfg fs c' ∧ Ext c c' :=
    getDeps_ext cfg fs hempty n
  intro ds
  induction ds with
  | nil =>
    intro results c c' r hc h pre p w post hsplit
    simp only [goDeps, Option.some.injEq, Prod.mk.injEq] at h
    obtain ⟨rfl, _⟩ := h
    exact Or.inl ⟨pre, hsplit⟩
  | cons dep rest ih =>
    intro results c c' r hc h pre p w post hsplit
    cases hrc : lookupTruthy c.resolverCache (resolvePath dir dep) with
    | some v =>
      simp only [goDeps, hrc] at h
      cases hrecv : getDeps cfg fs n v c with
      | none => rw [hrecv] at h; exact Option.noConfusion h
      | some P =>
        obtain ⟨c₁, res₁⟩ := P
        cases res₁ with
        | error e =>
          simp only [hrecv, Option.some.injEq, Prod.mk.injEq] at h
          cases h.2
        | ok childDeps =>
          simp only [hrecv] at h
          obtain ⟨hc₁, hext₁⟩ := hextRec v c c₁ _ hc hrecv
          have hextTail : Ext c₁ c' :=
            (goDeps_ext cfg fs hempty _ hextRec dir R rest _ c₁ c' _ hc₁ h).2
          rcases ih _ c₁ c' r hc₁ h pre p w post hsplit with h₁ | h₁
          · obtain ⟨t, ht⟩ := h₁
            rcases ihf v c c₁ childDeps hc hrecv t p w post ht with h₂ | h₂
            · exact Or.inl h₂
            · exact Or.inr (h₂.lift hextTail)
          · exact Or.inr h₁
    | none =>
      cases hres : resolveDependencyReference fs (resolvePath dir dep) R with
      | none =>
        simp only [goDeps, hrc, hres] at h
        exact ih results c c' r hc h pre p w post hsplit
      | some v =>
        have hfile := resolve_isFile hres
        have hfresh : alook (resolvePath dir dep) c.resolverCache = none := by
          rw [← lookupTruthy_eq_alook hc.1]
          exact hrc
        obtain ⟨hcI, hextI⟩ := insertRC_invC hempty hc hfresh hfile
        simp only [goDeps, hrc, hres] at h
        cases hrecv : getDeps cfg fs n v { c with resolverCache :=
            (resolvePath dir dep, v) :: c.resolverCache } with
        | none => rw [hrecv] at h; exact Option.noConfusion h
        | some P =>
          obtain ⟨c₁, res₁⟩ := P
          cases res₁ with
          | error e =>
            simp only [hrecv, Option.some.injEq, Prod.mk.injEq] at h
            cases h.2
          | ok childDeps =>
            simp only [hrecv] at h
            obtain ⟨hc₁, hext₁⟩ := hextRec v _ c₁ _ hcI hrecv
            have hextTail : Ext c₁ c' :=
              (goDeps_ext cfg fs hempty _ hextRec dir R rest _ c₁ c' _ hc₁ h).2
            rcases ih _ c₁ c' r hc₁ h pre p w post hsplit with h₁ | h₁
            · obtain ⟨t, ht⟩ := h₁
              rcases ihf v _ c₁ childDeps hcI hrecv t p w post ht with h₂ | h₂
              · rcases preExt_cons_elim h₂ with h₃ | h₃
                · obtain ⟨rfl, rfl, rfl⟩ :
                      p = resolvePath dir dep ∧ w = v ∧ post = c.resolverCache := by
                    have h4 := List.cons.inj h₃
                    exact ⟨congrArg Prod.fst h4.1, congrArg Prod.snd h4.1, h4.2⟩
                  refine Or.inr ⟨n, _, c₁, childDeps, rfl, hcI, hrecv,
                    hextTail.2.1, hextTail.2.2.2.1, hextTail.2.2.2.2⟩
                · exact Or.inl h₃
              · exact Or.inr (h₂.lift hextTail)
            · exact Or.inr h₁

/-- Provenance: every resolution-cache entry of the final state of a
completed call either was present initially (with everything older) or was
created during the call, right before a completed expansion of its value. -/
theorem getDeps_prov (cfg : SearchConfig) (fs : FileSystem)
    (hempty : alook "" fs.files = none) :
    ∀ fuel d c c' r, InvC cfg fs c →
      getDeps cfg fs fuel d c = some (c', .ok r) →
      ∀ pre p w post, c'.resolverCache = pre ++ (p, w) :: post →
        PreExt ((p, w) :: post) c.resolverCache ∨
        Created cfg fs p w post c' := by
  intro fuel
  induction fuel with
  | zero => intro d c c' r _ h; exact Option.noConfusion h
  | succ n ihf =>
    intro d c c' r hc h
    cases hstat : statSync fs d with
    | none =>
      simp only [getDeps, hstat, Option.some.injEq, Prod.mk.injEq] at h
      cases h.2
    | some st =>
      cases hdc : alook (cacheKey d st.mtimeMs) c.dependencyCache with
      | some deps =>
        simp only [getDeps, hstat, hdc] at h
        exact goDeps_prov cfg fs hempty n ihf (dirname d) _ deps [] c c' r hc h
      | none =>
        cases hread : readFileSync fs d with
        | none =>
          simp only [getDeps, hstat, hdc, hread, Option.some.injEq,
            Prod.mk.injEq] at h
          cases h.2
        | some content =>
          obtain ⟨info, hinfo, hcont, hmt⟩ := stat_read_file hstat hread
          simp only [getDeps, hstat, hdc, hread] at h
          rw [show st.mtimeMs = info.mtimeMs from hmt,
            show content = info.content from hcont.symm] at h
          have hfresh : alook (cacheKey d info.mtimeMs) c.dependencyCache =
              none := by
            rw [← hmt]
            exact hdc
          obtain ⟨hcI, hextI⟩ := insertDC_invC hc hinfo hfresh
          exact goDeps_prov cfg fs hempty n ihf (dirname d) _ _ []
            { dependencyCache := (cacheKey d info.mtimeMs,
                runParsers (configFor cfg (extname d)).parsers info.content) ::
                  c.dependencyCache,
              resolverCache := c.resolverCache, readLog := c.readLog ++ [d] }
            c' r hcI h

/-! ## C5 groundwork: fuel monotonicity of stationary runs -/

/-- Loop level: a loop that neither reads nor caches anything (it ends in
its start state) runs identically under any larger recursion budget. -/
theorem goDeps_mono_fuel (cfg : SearchConfig) (fs : FileSystem)
    (hempty : alook "" fs.files = none) (n n' : Nat)
    (ihf : ∀ C v r, InvC cfg fs C →
      getDeps cfg fs n v C = some (C, .ok r) →
      getDeps cfg fs n' v C = some (C, .ok r))
    (dir : String) (R : List (String → String)) :
    ∀ ds results C r, InvC cfg fs C →
      goDeps (getDeps cfg fs n) fs dir R ds results C = some (C, .ok r) →
      goDeps (getDeps cfg fs n') fs dir R ds results C = some (C, .ok r) := by
  intro ds
  induction ds with
  | nil => intro results C r _ h; exact h
  | cons dep rest ih =>
    intro results C r hC h
    cases hrc : lookupTruthy C.resolverCache (resolvePath dir dep) with
    | some v =>
      simp only [goDeps, hrc] at h ⊢
      cases hrecv : getDeps cfg fs n v C with
      | none => rw [hrecv] at h; exact Option.noConfusion h
      | some P =>
        obtain ⟨c₁, res₁⟩ := P
        cases res₁ with
        | error e =>
          simp only [hrecv, Option.some.injEq, Prod.mk.injEq] at h
          cases h.2
        | ok childDeps =>
          simp only [hrecv] at h
          obtain ⟨hc₁, hext₁⟩ := getDeps_ext cfg fs hempty n v C c₁ _ hC hrecv
          have hext₂ : Ext c₁ C :=
            (goDeps_ext cfg fs hempty _ (getDeps_ext cfg fs hempty n) dir R
              rest _ c₁ C _ hc₁ h).2
          obtain rfl := Ext.antisymm hext₁ hext₂
          rw [ihf C v childDeps hC hrecv]
          exact ih _ C r hC h
    | none =>
      cases hres : resolveDependencyReference fs (resolvePath dir dep) R with
      | none =>
        simp only [goDeps, hrc, hres] at h ⊢
        exact ih results C r hC h
      | some v =>
        exfalso
        have hfile := resolve_isFile hres
        have hfresh : alook (resolvePath dir dep) C.resolverCache = none := by
          rw [← lookupTruthy_eq_alook hC.1]
          exact hrc
        obtain ⟨hcI, hextI⟩ := insertRC_invC hempty hC hfresh hfile
        simp only [goDeps, hrc, hres] at h
        cases hrecv : getDeps cfg fs n v { C with resolverCache :=
            (resolvePath dir dep, v) :: C.resolverCache } with
        | none => rw [hrecv] at h; exact Option.noConfusion h
        | some P =>
          obtain ⟨c₁, res₁⟩ := P
          cases res₁ with
          | error e =>
            simp only [hrecv, Option.some.injEq, Prod.mk.injEq] at h
            cases h.2
          | ok childDeps =>
            simp only [hrecv] at h
            obtain ⟨hc₁, hext₁⟩ :=
              getDeps_ext cfg fs hempty n v _ c₁ _ hcI hrecv
            have hext₂ : Ext c₁ C :=
              (goDeps_ext cfg fs hempty _ (getDeps_ext cfg fs hempty n) dir R
                rest _ c₁ C _ hc₁ h).2
            have hlen := (hext₁.chainExt hext₂).2.1.le_length
            simp only [show ({ C with resolverCache :=
              (resolvePath dir dep, v) :: C.resolverCache } :
              Caches).resolverCache =
              (resolvePath dir dep, v) :: C.resolverCache from rfl,
              List.length_cons] at hlen
            omega

/-- A stationary run survives any fuel increase unchanged. -/
theorem getDeps_mono_fuel (cfg : SearchConfig) (fs : FileSystem)
    (hempty : alook "" fs.files = none) :
    ∀ fuel C v r, InvC cfg fs C →
      getDeps cfg fs fuel v C = some (C, .ok r) →
      ∀ fuel', fuel ≤ fuel' → getDeps cfg fs fuel' v C = some (C, .ok r) := by
  intro fuel
  induction fuel with
  | zero => intro C v r _ h; exact Option.noConfusion h
  | succ n ihf =>
    intro C v r hC h fuel' hle
    obtain ⟨n', rfl⟩ : ∃ n', fuel' = n' + 1 := ⟨fuel' - 1, by omega⟩
    have hn : n ≤ n' := by omega
    have hstep : ∀ C₀ v₀ r₀, InvC cfg fs C₀ →
        getDeps cfg fs n v₀ C₀ = some (C₀, .ok r₀) →
        getDeps cfg fs n' v₀ C₀ = some (C₀, .ok r₀) :=
      fun C₀ v₀ r₀ hC₀ h₀ => ihf C₀ v₀ r₀ hC₀ h₀ n' hn
    cases hstat : statSync fs v with
    | none =>
      simp only [getDeps, hstat, Option.some.injEq, Prod.mk.injEq] at h
      cases h.2
    | some st =>
      cases hdc : alook (cacheKey v st.mtimeMs) C.dependencyCache with
      | some deps =>
        simp only [getDeps, hstat, hdc] at h ⊢
        exact goDeps_mono_fuel cfg fs hempty n n' hstep (dirname v) _
          deps [] C r hC h
      | none =>
        exfalso
        cases hread : readFileSync fs v with
        | none =>
          simp only [getDeps, hstat, hdc, hread, Option.some.injEq,
            Prod.mk.injEq] at h
          cases h.2
        | some content =>
          obtain ⟨info, hinfo, hcont, hmt⟩ := stat_read_file hstat hread
          simp only [getDeps, hstat, hdc, hread] at h
          rw [show st.mtimeMs = info.mtimeMs from hmt,
            show content = info.content from hcont.symm] at h
          have hfresh : alook (cacheKey v info.mtimeMs) C.dependencyCache =
              none := by
            rw [← hmt]
            exact hdc
          obtain ⟨hcI, hextI⟩ := insertDC_invC hC hinfo hfresh
          have hext' :=
            (goDeps_ext cfg fs hempty _ (getDeps_ext cfg fs hempty n)
              (dirname v) _ _ [] _ C _ hcI h).2
          have hlen := hext'.2.2.1.app_le_length
          simp only [show ({ C with
            dependencyCache := (cacheKey v info.mtimeMs,
              runParsers (configFor cfg (extname v)).parsers info.content) ::
              C.dependencyCache,
            readLog := C.readLog ++ [v] } : Caches).readLog =
            C.readLog ++ [v] from rfl, List.length_append,
            List.length_singleton] at hlen
          omega

/-! ## C5: idempotence machinery -/

theorem alook_append_none {α : Type} {k : String} {l₁ : List (String × α)}
    (h : alook k l₁ = none) (l₂ : List (String × α)) :
    alook k (l₁ ++ l₂) = alook k l₂ := by
  induction l₁ with
  | nil => rfl
  | cons e rest ih =>
    obtain ⟨q, v⟩ := e
    by_cases hk : q = k
    · rw [alook_cons, if_pos hk] at h
      cases h
    · rw [alook_cons, if_neg hk] at h
      rw [List.cons_append, alook_cons, if_neg hk]
      exact ih h

theorem alook_append_some {α : Type} {k : String} {l₁ : List (String × α)}
    {v : α} (h : alook k l₁ = some v) (l₂ : List (String × α)) :
    alook k (l₁ ++ l₂) = some v := by
  induction l₁ with
  | nil => cases h
  | cons e rest ih =>
    obtain ⟨q, w⟩ := e
    by_cases hk : q = k
    · rw [alook_cons, if_pos hk] at h
      rw [List.cons_append, alook_cons, if_pos hk]
      exact h
    · rw [alook_cons, if_neg hk] at h
      rw [List.cons_append, alook_cons, if_neg hk]
      exact ih h

/-- A successful lookup splits the list at the first binding of the key. -/
theorem alook_split {α : Type} {k : String} {l : List (String × α)} {v : α}
    (h : alook k l = some v) :
    ∃ pre post, l = pre ++ (k, v) :: post ∧ alook k pre = none := by
  induction l with
  | nil => cases h
  | cons e rest ih =>
    obtain ⟨q, w⟩ := e
    by_cases hk : q = k
    · rw [alook_cons, if_pos hk] at h
      obtain rfl := Option.some.inj h
      exact ⟨[], rest, by rw [hk]; rfl, rfl⟩
    · rw [alook_cons, if_neg hk] at h
      obtain ⟨pre, post, hpre, hnone⟩ := ih h
      exact ⟨(q, w) :: pre, post, by rw [hpre]; rfl,
        by rw [alook_cons, if_neg hk]; exact hnone⟩

/-- A pure walk: the argument expands from the saturated state without
changing it, and every member of the result is a resolution-cache value. -/
def PW (cfg : SearchConfig) (fs : FileSystem) (c₁ : Caches) (w : String) :
    Prop :=
  ∃ fuel r, getDeps cfg fs fuel w c₁ = some (c₁, .ok r) ∧
    ∀ x ∈ r, ∃ p, alook p c₁.resolverCache = some x

/-- The pure-walk hypothesis on entries missing from a state carries over to
any extension of that state. -/
theorem hnewer_mono {cfg : SearchConfig} {fs : FileSystem} {c₁ c cb : Caches}
    (hext : Ext c cb)
    (hnew : ∀ p w, alook p c₁.resolverCache = some w →
      alook p c.resolverCache = none → PW cfg fs c₁ w) :
    ∀ p w, alook p c₁.resolverCache = some w →
      alook p cb.resolverCache = none → PW cfg fs c₁ w := by
  intro p w hw hnone
  refine hnew p w hw ?_
  cases hq : alook p c.resolverCache with
  | none => rfl
  | some z =>
    have hz := hext.2.2.2.2 p z hq
    rw [hnone] at hz
    exact Option.noConfusion hz

/-- Simulation, loop level: a completed loop of the first run, all of whose
final cache bindings persist into the saturated state `c₁`, can be replayed
from `c₁` without changing it, returning at least the same results, the
extra members all being resolution-cache values. -/
theorem goDeps_sim (cfg : SearchConfig) (fs : FileSystem)
    (hempty : alook "" fs.files = none) (c₁ : Caches) (hc₁ : InvC cfg fs c₁)
    (n : Nat)
    (ihf : ∀ v c c' r, InvC cfg fs c →
      getDeps cfg fs n v c = some (c', .ok r) →
      (∀ k x, alook k c'.dependencyCache = some x →
        alook k c₁.dependencyCache = some x) →
      (∀ k x, alook k c'.resolverCache = some x →
        alook k c₁.resolverCache = some x) →
      (∀ p w, alook p c₁.resolverCache = some w →
        alook p c.resolverCache = none → PW cfg fs c₁ w) →
      ∃ fuel₂ r₂, getDeps cfg fs fuel₂ v c₁ = some (c₁, .ok r₂) ∧
        (∀ x ∈ r, x ∈ r₂) ∧
        (∀ x ∈ r₂, x ∈ r ∨ ∃ p, alook p c₁.resolverCache = some x))
    (dir : String) (R : List (String → String)) :
    ∀ ds results results₂ c c' r, InvC cfg fs c →
      goDeps (getDeps cfg fs n) fs dir R ds results c = some (c', .ok r) →
      (∀ k x, alook k c'.dependencyCache = some x →
        alook k c₁.dependencyCache = some x) →
      (∀ k x, alook k c'.resolverCache = some x →
        alook k c₁.resolverCache = some x) →
      (∀ p w, alook p c₁.resolverCache = some w →
        alook p c.resolverCache = none → PW cfg fs c₁ w) →
      (∀ x ∈ results, x ∈ results₂) →
      (∀ x ∈ results₂, x ∈ results ∨ ∃ p, alook p c₁.resolverCache = some x) →
      ∃ fuel₂ r₂,
        goDeps (getDeps cfg fs fuel₂) fs dir R ds results₂ c₁ =
          some (c₁, .ok r₂) ∧
        (∀ x ∈ r, x ∈ r₂) ∧
        (∀ x ∈ r₂, x ∈ r ∨ ∃ p, alook p c₁.resolverCache = some x) := by
  have hextRec : ∀ d c c' res, InvC cfg fs c →
      getDeps cfg fs n d c = some (c', res) → InvC cfg fs c' ∧ Ext c c' :=
    getDeps_ext cfg fs hempty n
  intro ds
  induction ds with
  | nil =>
    intro results results₂ c c' r hc h _ _ _ hacc12 hacc21
    simp only [goDeps, Option.some.injEq, Prod.mk.injEq, Except.ok.injEq] at h
    obtain ⟨rfl, rfl⟩ := h
    exact ⟨0, results₂, rfl, hacc12, hacc21⟩
  | cons dep rest ih =>
    intro results results₂ c c' r hc h hpD hpR hnew hacc12 hacc21
    cases hrc : lookupTruthy c.resolverCache (resolvePath dir dep) with
    | some v =>
      simp only [goDeps, hrc] at h
      cases hrecv : getDeps cfg fs n v c with
      | none => rw [hrecv] at h; exact Option.noConfusion h
      | some P =>
        obtain ⟨cm, res₁⟩ := P
        cases res₁ with
        | error e =>
          simp only [hrecv, Option.some.injEq, Prod.mk.injEq] at h
          cases h.2
        | ok childDeps =>
          simp only [hrecv] at h
          obtain ⟨hcm, hext₁⟩ := hextRec v c cm _ hc hrecv
          have hextTail : Ext cm c' :=
            (goDeps_ext cfg fs hempty _ hextRec dir R rest _ cm c' _ hcm h).2
          obtain ⟨fv, rv, hrunv, hv12, hv21⟩ := ihf v c cm childDeps hc hrecv
            (fun k x hx => hpD k x (hextTail.2.2.2.1 k x hx))
            (fun k x hx => hpR k x (hextTail.2.2.2.2 k x hx))
            hnew
          obtain ⟨hvrc, _⟩ := lookupTruthy_some hrc
          have hlt₂ : lookupTruthy c₁.resolverCache (resolvePath dir dep) =
              some v := by
            rw [lookupTruthy_eq_alook hc₁.1]
            exact hpR _ _ (hextTail.2.2.2.2 _ _ (hext₁.2.2.2.2 _ _ hvrc))
          have hvc₁ : alook (resolvePath dir dep) c₁.resolverCache = some v :=
            hpR _ _ (hextTail.2.2.2.2 _ _ (hext₁.2.2.2.2 _ _ hvrc))
          have hacc12' : ∀ x ∈ childDeps.foldl addSet (addSet results v),
              x ∈ rv.foldl addSet (addSet results₂ v) := by
            intro x hx
            rcases mem_foldl_addSet hx with hx₁ | hx₁
            · rcases mem_addSet hx₁ with hx₂ | hx₂
              · exact foldl_addSet_sub _ (addSet_sub _ (hacc12 x hx₂))
              · rw [hx₂]
                exact foldl_addSet_sub _ (mem_addSet_self _ _)
            · exact foldl_addSet_of_mem _ (hv12 x hx₁)
          have hacc21' : ∀ x ∈ rv.foldl addSet (addSet results₂ v),
              x ∈ childDeps.foldl addSet (addSet results v) ∨
              ∃ p, alook p c₁.resolverCache = some x := by
            intro x hx
            rcases mem_foldl_addSet hx with hx₁ | hx₁
            · rcases mem_addSet hx₁ with hx₂ | hx₂
              · rcases hacc21 x hx₂ with hx₃ | hx₃
                · exact Or.inl (foldl_addSet_sub _ (addSet_sub _ hx₃))
                · exact Or.inr hx₃
              · rw [hx₂]
                exact Or.inl (foldl_addSet_sub _ (mem_addSet_self _ _))
            · rcases hv21 x hx₁ with hx₂ | hx₂
              · exact Or.inl (foldl_addSet_of_mem _ hx₂)
              · exact Or.inr hx₂
          obtain ⟨fR, r₂, hrunR, h12, h21⟩ := ih
            (childDeps.foldl addSet (addSet results v))
            (rv.foldl addSet (addSet results₂ v)) cm c' r hcm h hpD hpR
            (hnewer_mono hext₁ hnew) hacc12' hacc21'
          refine ⟨max fv fR, r₂, ?_, h12, h21⟩
          have hrunv' := getDeps_mono_fuel cfg fs hempty fv c₁ v rv hc₁ hrunv
            (max fv fR) (Nat.le_max_left _ _)
          have hrunR' := goDeps_mono_fuel cfg fs hempty fR (max fv fR)
            (fun C v₀ r₀ hC h₀ => getDeps_mono_fuel cfg fs hempty fR C v₀ r₀
              hC h₀ _ (Nat.le_max_right fv fR))
            dir R rest _ c₁ r₂ hc₁ hrunR
          simp only [goDeps, hlt₂, hrunv']
          exact hrunR'
    | none =>
      cases hres : resolveDependencyReference fs (resolvePath dir dep) R with
      | none =>
        simp only [goDeps, hrc, hres] at h
        have hcnone : alook (resolvePath dir dep) c.resolverCache = none := by
          rw [← lookupTruthy_eq_alook hc.1]
          exact hrc
        cases halook : alook (resolvePath dir dep) c₁.resolverCache with
        | none =>
          obtain ⟨fR, r₂, hrunR, h12, h21⟩ := ih results results₂ c c' r hc h
            hpD hpR hnew hacc12 hacc21
          refine ⟨fR, r₂, ?_, h12, h21⟩
          have hlt₂ : lookupTruthy c₁.resolverCache (resolvePath dir dep) =
              none := by
            rw [lookupTruthy_eq_alook hc₁.1]
            exact halook
          simp only [goDeps, hlt₂, hres]
          exact hrunR
        | some w =>
          obtain ⟨fw, rw₀, hrunw, hrw⟩ := hnew _ w halook hcnone
          have hacc12' : ∀ x ∈ results,
              x ∈ rw₀.foldl addSet (addSet results₂ w) :=
            fun x hx => foldl_addSet_sub _ (addSet_sub _ (hacc12 x hx))
          have hacc21' : ∀ x ∈ rw₀.foldl addSet (addSet results₂ w),
              x ∈ results ∨ ∃ p, alook p c₁.resolverCache = some x := by
            intro x hx
            rcases mem_foldl_addSet hx with hx₁ | hx₁
            · rcases mem_addSet hx₁ with hx₂ | hx₂
              · exact hacc21 x hx₂
              · rw [hx₂]
                exact Or.inr ⟨resolvePath dir dep, halook⟩
            · exact Or.inr (hrw x hx₁)
          obtain ⟨fR, r₂, hrunR, h12, h21⟩ := ih results
            (rw₀.foldl addSet (addSet results₂ w)) c c' r hc h hpD hpR hnew
            hacc12' hacc21'
          refine ⟨max fw fR, r₂, ?_, h12, h21⟩
          have hlt₂ : lookupTruthy c₁.resolverCache (resolvePath dir dep) =
              some w := by
            rw [lookupTruthy_eq_alook hc₁.1]
            exact halook
          have hrunw' := getDeps_mono_fuel cfg fs hempty fw c₁ w rw₀ hc₁ hrunw
            (max fw fR) (Nat.le_max_left _ _)
          have hrunR' := goDeps_mono_fuel cfg fs hempty fR (max fw fR)
            (fun C v₀ r₀ hC h₀ => getDeps_mono_fuel cfg fs hempty fR C v₀ r₀
              hC h₀ _ (Nat.le_max_right fw fR))
            dir R rest _ c₁ r₂ hc₁ hrunR
          simp only [goDeps, hlt₂, hrunw']
          exact hrunR'
      | some v =>
        have hfile := resolve_isFile hres
        have hfresh : alook (resolvePath dir dep) c.resolverCache = none := by
          rw [← lookupTruthy_eq_alook hc.1]
          exact hrc
        obtain ⟨hcI, hextI⟩ := insertRC_invC hempty hc hfresh hfile
        simp only [goDeps, hrc, hres] at h
        cases hrecv : getDeps cfg fs n v { c with resolverCache :=
            (resolvePath dir dep, v) :: c.resolverCache } with
        | none => rw [hrecv] at h; exact Option.noConfusion h
        | some P =>
          obtain ⟨cm, res₁⟩ := P
          cases res₁ with
          | error e =>
            simp only [hrecv, Option.some.injEq, Prod.mk.injEq] at h
            cases h.2
          | ok childDeps =>
            simp only [hrecv] at h
            obtain ⟨hcm, hext₁⟩ := hextRec v _ cm _ hcI hrecv
            have hextTail : Ext cm c' :=
              (goDeps_ext cfg fs hempty _ hextRec dir R rest _ cm c' _ hcm h).2
            obtain ⟨fv, rv, hrunv, hv12, hv21⟩ := ihf v _ cm childDeps hcI
              hrecv
              (fun k x hx => hpD k x (hextTail.2.2.2.1 k x hx))
              (fun k x hx => hpR k x (hextTail.2.2.2.2 k x hx))
              (hnewer_mono hextI hnew)
            have hvc₁ : alook (resolvePath dir dep) c₁.resolverCache =
                some v := by
              refine hpR _ _ (hextTail.2.2.2.2 _ _ (hext₁.2.2.2.2 _ _ ?_))
              rw [show ({ c with resolverCache :=
                  (resolvePath dir dep, v) :: c.resolverCache } :
                  Caches).resolverCache =
                  (resolvePath dir dep, v) :: c.resolverCache from rfl,
                alook_cons, if_pos rfl]
            have hlt₂ : lookupTruthy c₁.resolverCache (resolvePath dir dep) =
                some v := by
              rw [lookupTruthy_eq_alook hc₁.1]
              exact hvc₁
            have hacc12' : ∀ x ∈ childDeps.foldl addSet (addSet results v),
                x ∈ rv.foldl addSet (addSet results₂ v) := by
              intro x hx
              rcases mem_foldl_addSet hx with hx₁ | hx₁
              · rcases mem_addSet hx₁ with hx₂ | hx₂
                · exact foldl_addSet_sub _ (addSet_sub _ (hacc12 x hx₂))
                · rw [hx₂]
                  exact foldl_addSet_sub _ (mem_addSet_self _ _)
              · exact foldl_addSet_of_mem _ (hv12 x hx₁)
            have hacc21' : ∀ x ∈ rv.foldl addSet (addSet results₂ v),
                x ∈ childDeps.foldl addSet (addSet results v) ∨
                ∃ p, alook p c₁.resolverCache = some x := by
              intro x hx
              rcases mem_foldl_addSet hx with hx₁ | hx₁
              · rcases mem_addSet hx₁ with hx₂ | hx₂
                · rcases hacc21 x hx₂ with hx₃ | hx₃
                  · exact Or.inl (foldl_addSet_sub _ (addSet_sub _ hx₃))
                  · exact Or.inr hx₃
                · rw [hx₂]
                  exact Or.inl (foldl_addSet_sub _ (mem_addSet_self _ _))
              · rcases hv21 x hx₁ with hx₂ | hx₂
                · exact Or.inl (foldl_addSet_of_mem _ hx₂)
                · exact Or.inr hx₂
            obtain ⟨fR, r₂, hrunR, h12, h21⟩ := ih
              (childDeps.foldl addSet (addSet results v))
              (rv.foldl addSet (addSet results₂ v)) cm c' r hcm h hpD hpR
              (hnewer_mono (hextI.chainExt hext₁) hnew) hacc12' hacc21'
            refine ⟨max fv fR, r₂, ?_, h12, h21⟩
            have hrunv' := getDeps_mono_fuel cfg fs hempty fv c₁ v rv hc₁
              hrunv (max fv fR) (Nat.le_max_left _ _)
            have hrunR' := goDeps_mono_fuel cfg fs hempty fR (max fv fR)
              (fun C v₀ r₀ hC h₀ => getDeps_mono_fuel cfg fs hempty fR C v₀ r₀
                hC h₀ _ (Nat.le_max_right fv fR))
              dir R rest _ c₁ r₂ hc₁ hrunR
            simp only [goDeps, hlt₂, hrunv']
            exact hrunR'

/-- Simulation: a completed first-run call, all of whose final bindings
persist into the saturated state `c₁`, replays from `c₁` as a stationary
run — no cache writes and no reads — whose result covers the original one,
any extra member being a resolution-cache value of `c₁`. -/
theorem getDeps_sim (cfg : SearchConfig) (fs : FileSystem)
    (hempty : alook "" fs.files = none) (c₁ : Caches)
    (hc₁ : InvC cfg fs c₁) :
    ∀ fuel v c c' r, InvC cfg fs c →
      getDeps cfg fs fuel v c = some (c', .ok r) →
      (∀ k x, alook k c'.dependencyCache = some x →
        alook k c₁.dependencyCache = some x) →
      (∀ k x, alook k c'.resolverCache = some x →
        alook k c₁.resolverCache = some x) →
      (∀ p w, alook p c₁.resolverCache = some w →
        alook p c.resolverCache = none → PW cfg fs c₁ w) →
      ∃ fuel₂ r₂, getDeps cfg fs fuel₂ v c₁ = some (c₁, .ok r₂) ∧
        (∀ x ∈ r, x ∈ r₂) ∧
        (∀ x ∈ r₂, x ∈ r ∨ ∃ p, alook p c₁.resolverCache = some x) := by
  intro fuel
  induction fuel with
  | zero => intro v c c' r _ h; exact Option.noConfusion h
  | succ n ihf =>
    intro v c c' r hc h hpD hpR hnew
    cases hstat : statSync fs v with
    | none =>
      simp only [getDeps, hstat, Option.some.injEq, Prod.mk.injEq] at h
      cases h.2
    | some st =>
      cases hdc : alook (cacheKey v st.mtimeMs) c.dependencyCache with
      | some deps =>
        simp only [getDeps, hstat, hdc] at h
        obtain ⟨fL, r₂, hrun, h12, h21⟩ := goDeps_sim cfg fs hempty c₁ hc₁ n
          ihf (dirname v) _ deps [] [] c c' r hc h hpD hpR hnew
          (fun x hx => hx) (fun x hx => absurd hx (List.not_mem_nil x))
        have hdc₁ : alook (cacheKey v st.mtimeMs) c₁.dependencyCache =
            some deps := by
          apply hpD
          exact (goDeps_ext cfg fs hempty _ (getDeps_ext cfg fs hempty n)
            (dirname v) _ deps [] c c' _ hc h).2.2.2.2.1 _ _ hdc
        refine ⟨fL + 1, r₂, ?_, h12, h21⟩
        simp only [getDeps, hstat, hdc₁]
        exact hrun
      | none =>
        cases hread : readFileSync fs v with
        | none =>
          simp only [getDeps, hstat, hdc, hread, Option.some.injEq,
            Prod.mk.injEq] at h
          cases h.2
        | some content =>
          obtain ⟨info, hinfo, hcont, hmt⟩ := stat_read_file hstat hread
          simp only [getDeps, hstat, hdc, hread] at h
          rw [show st.mtimeMs = info.mtimeMs from hmt,
            show content = info.content from hcont.symm] at h
          have hfresh : alook (cacheKey v info.mtimeMs) c.dependencyCache =
              none := by
            rw [← hmt]
            exact hdc
          obtain ⟨hcI, hextI⟩ := insertDC_invC hc hinfo hfresh
          obtain ⟨fL, r₂, hrun, h12, h21⟩ := goDeps_sim cfg fs hempty c₁ hc₁ n
            ihf (dirname v) _ _ [] []
            { dependencyCache := (cacheKey v info.mtimeMs,
                runParsers (configFor cfg (extname v)).parsers info.content) ::
                  c.dependencyCache,
              resolverCache := c.resolverCache, readLog := c.readLog ++ [v] }
            c' r hcI h hpD hpR (hnewer_mono hextI hnew)
            (fun x hx => hx) (fun x hx => absurd hx (List.not_mem_nil x))
          have hdc₁ : alook (cacheKey v info.mtimeMs) c₁.dependencyCache =
              some (runParsers (configFor cfg (extname v)).parsers
                info.content) := by
            apply hpD
            refine (goDeps_ext cfg fs hempty _ (getDeps_ext cfg fs hempty n)
              (dirname v) _ _ []
              { dependencyCache := (cacheKey v info.mtimeMs,
                  runParsers (configFor cfg (extname v)).parsers
                    info.content) :: c.dependencyCache,
                resolverCache := c.resolverCache,
                readLog := c.readLog ++ [v] }
              c' _ hcI h).2.2.2.2.1 _ _ ?_
            have hhead := alook_cons (cacheKey v info.mtimeMs)
              (runParsers (configFor cfg (extname v)).parsers info.content)
              (cacheKey v info.mtimeMs) c.dependencyCache
            rw [if_pos rfl] at hhead
            exact hhead
          refine ⟨fL + 1, r₂, ?_, h12, h21⟩
          simp only [getDeps, hstat, hmt, hdc₁]
          exact hrun

/-- Every resolution-cache value of the final state of a run from the empty
caches admits a pure stationary walk from that final state. -/
theorem getDeps_entries (cfg : SearchConfig) (fs : FileSystem)
    (hempty : alook "" fs.files = none)
    {fuel : Nat} {d : String} {c₁ : Caches} {r₁ : List String}
    (hrun : getDeps cfg fs fuel d emptyCaches = some (c₁, .ok r₁)) :
    ∀ p w, alook p c₁.resolverCache = some w → PW cfg fs c₁ w := by
  have hc₁ : InvC cfg fs c₁ :=
    (getDeps_ext cfg fs hempty fuel d _ c₁ _ (InvC_empty cfg fs) hrun).1
  suffices H : ∀ m pre p w post, pre.length < m →
      c₁.resolverCache = pre ++ (p, w) :: post → PW cfg fs c₁ w by
    intro p w hw
    obtain ⟨pre, post, hsplit, _⟩ := alook_split hw
    exact H (pre.length + 1) pre p w post (Nat.lt_succ_self _) hsplit
  intro m
  induction m with
  | zero => intro pre p w post hlt _; exact absurd hlt (Nat.not_lt_zero _)
  | succ m ihm =>
    intro pre p w post hlt hsplit
    rcases getDeps_prov cfg fs hempty fuel d emptyCaches c₁ r₁
      (InvC_empty cfg fs) hrun pre p w post hsplit with hold | hcre
    · obtain ⟨t, ht⟩ := hold
      have ht₀ : ([] : List (String × String)) = t ++ (p, w) :: post := ht
      have hlen0 := congrArg List.length ht₀
      simp only [List.length_nil, List.length_append, List.length_cons]
        at hlen0
      omega
    · obtain ⟨fc, cc, cc', rc₀, hccrc, hccI, hccrun, hccpre, hccD, hccR⟩ :=
        hcre
      have hnewX : ∀ q u, alook q c₁.resolverCache = some u →
          alook q cc.resolverCache = none → PW cfg fs c₁ u := by
        intro q u hu hnone
        rw [hccrc] at hnone
        have hq_pre : alook q pre = some u := by
          rw [hsplit] at hu
          cases hqp : alook q pre with
          | none =>
            rw [alook_append_none hqp ((p, w) :: post)] at hu
            rw [hnone] at hu
            exact Option.noConfusion hu
          | some z =>
            rw [alook_append_some hqp ((p, w) :: post)] at hu
            exact hu
        obtain ⟨a, b, hab, _⟩ := alook_split hq_pre
        have hsplit' : c₁.resolverCache = a ++ (q, u) :: (b ++ (p, w) :: post)
            := by
          rw [hsplit, hab, List.append_assoc, List.cons_append]
        have hlen' : a.length < m := by
          have hlab := congrArg List.length hab
          simp only [List.length_append, List.length_cons] at hlab
          omega
        exact ihm a q u (b ++ (p, w) :: post) hlen' hsplit'
      obtain ⟨f₂, r₂, hrun₂, h12, h21⟩ := getDeps_sim cfg fs hempty c₁ hc₁
        fc w cc cc' rc₀ hccI hccrun hccD hccR hnewX
      refine ⟨f₂, r₂, hrun₂, ?_⟩
      intro x hx
      rcases h21 x hx with hx₁ | hx₁
      · obtain ⟨q, hq⟩ := (getDeps_values cfg fs hempty fc w cc cc' rc₀ hccI
          hccrun).2 x hx₁
        exact ⟨q, hccR q x hq⟩
      · exact hx₁

/-- C5: idempotence on an unchanged snapshot.  After a first call from the
pristine shared caches completes with closure `r₁` and cache state `c₁`,
repeating the same query from `c₁` returns the same set and ends in exactly
`c₁` — in particular the read log is unchanged, so the second call re-reads
no file content: every file it touches hits the extraction cache keyed by
path and modification time. -/
theorem claim_C5_idempotent (cfg : SearchConfig) (fs : FileSystem)
    (hempty : alook "" fs.files = none) (fuel : Nat) (d : String)
    (c₁ : Caches) (r₁ : List String)
    (h : getDeps cfg fs fuel d emptyCaches = some (c₁, .ok r₁)) :
    ∃ fuel₂ r₂, getDeps cfg fs fuel₂ d c₁ = some (c₁, .ok r₂) ∧
      ∀ x, x ∈ r₂ ↔ x ∈ r₁ := by
  have hc₁ : InvC cfg fs c₁ :=
    (getDeps_ext cfg fs hempty fuel d _ c₁ _ (InvC_empty cfg fs) h).1
  obtain ⟨f₂, r₂, hrun₂, h12, h21⟩ := getDeps_sim cfg fs hempty c₁ hc₁ fuel d
    emptyCaches c₁ r₁ (InvC_empty cfg fs) h (fun k x hx => hx)
    (fun k x hx => hx)
    (fun p w hw _ => getDeps_entries cfg fs hempty h p w hw)
  refine ⟨f₂, r₂, hrun₂, fun x => ⟨fun hx => ?_, fun hx => h12 x hx⟩⟩
  rcases h21 x hx with hx₁ | hx₁
  · exact hx₁
  · obtain ⟨p, hp⟩ := hx₁
    rcases (getDeps_values cfg fs hempty fuel d emptyCaches c₁ r₁
      (InvC_empty cfg fs) h).1 p x hp with habs | hx₂
    · exact Option.noConfusion habs
    · exact hx₂

/-- Witness for C5 on the chain scenario: the replay of the walk of
`chainFS` from its saturated caches is stationary and returns the same
closure. -/
theorem claim_C5_idempotent_witness :
    ∃ fuel₂ r₂, getDeps defaultSearchConfig chainFS fuel₂ "/m/main.js"
        chainCaches = some (chainCaches, .ok r₂) ∧
      ∀ x, x ∈ r₂ ↔ x ∈ ["/m/util.js", "/m/helpers.mjs"] :=
  claim_C5_idempotent defaultSearchConfig chainFS rfl 5 "/m/main.js"
    chainCaches ["/m/util.js", "/m/helpers.mjs"] rfl

end Gulp
